import Mathlib

/-!
# go-parquet-cli: schema listing and row-window export

A shallow embedding of `main.go`.  The two entry operations, `showSchema` and
`readParquet`, are translated function by function; the Parquet decoder
(`github.com/xitongsys/parquet-go`) is an external collaborator and appears as
the interface `Decoder`.  Go's `int` is a 64-bit two's-complement integer and is
embedded as `Int` with an explicit wrap after every addition and subtraction
(a 64-bit platform is assumed).

What a run does is recorded as the sequence of records handed to the CSV writer,
the sequence of calls issued to the decoder, and the way the run ended.
-/

namespace ParquetCli

/-! ## Machine integers -/

/-- Two's-complement reduction of a mathematical integer to Go's 64-bit `int`. -/
def wrapInt (x : Int) : Int := (x + 2 ^ 63) % 2 ^ 64 - 2 ^ 63

/-- Go `a + b` on `int`. -/
def addInt (a b : Int) : Int := wrapInt (a + b)

/-- Go `a - b` on `int`. -/
def subInt (a b : Int) : Int := wrapInt (a - b)

/-- The values a Go `int` can hold. -/
def IsInt (x : Int) : Prop := -2 ^ 63 ≤ x ∧ x < 2 ^ 63

instance (x : Int) : Decidable (IsInt x) := by unfold IsInt; infer_instance

/-! ## Column names (`main.go` lines 35-42, 117) -/

/-- The string literal `"Schema\x01"` of `cleanColumnName` and of the path built
for `ReadColumnByPath`. -/
def columnNamespace : String := "Schema\x01"

/-- Go `strings.HasPrefix(s, p)`.  Go compares bytes; on the characters of a
string this is the same test whenever `p` is ASCII, as `"Schema\x01"` is. -/
def HasPrefix (s p : String) : Bool := p.data.isPrefixOf s.data

/-- `cleanColumnName`: drop the leading `"Schema\x01"` when it is there
(`name[len(prefix):]`), otherwise return the name unchanged. -/
def cleanColumnName (name : String) : String :=
  if HasPrefix name columnNamespace then ⟨name.data.drop columnNamespace.length⟩ else name

/-- The path handed to `ReadColumnByPath` for a column name: `"Schema\x01"+col`
(line 117). -/
def columnPath (col : String) : String := columnNamespace ++ col

/-! ## The decoder interface and the observable behaviour of a run -/

deriving instance DecidableEq for Except

/-- The four operations `main.go` uses of a `*reader.ParquetReader` whose state
has type `σ` and whose values have type `α`: the schema
(`pr.SchemaHandler.ValueColumns`), `GetNumRows`, `SkipRows` and
`ReadColumnByPath`.  An `Except.error` is a non-nil Go `error`. -/
structure Decoder (σ α : Type) where
  ValueColumns : σ → List String
  GetNumRows : σ → Int
  SkipRows : σ → Int → Except String σ
  ReadColumnByPath : σ → String → Int → Except String (List α × σ)

/-- A call issued to the decoder. -/
inductive Call where
  | SkipRows (num : Int)
  | ReadColumnByPath (path : String) (num : Int)
  deriving DecidableEq, Repr

/-- The `log.Fatalf` sites of `readParquet` with the values they report
(lines 72, 80, 108, 119).  The message of line 72 also prints the map
`validCols`, which is not recorded here. -/
inductive Fatal where
  | unknownColumn (col : String)
  | offsetOutOfRange (offset numRows : Int)
  | skipFailed (offset : Int) (err : String)
  | readFailed (col : String) (err : String)
  deriving DecidableEq, Repr

/-- How a run ends: normal return, a `log.Fatalf`, the Go runtime panic
"index out of range" of `colValues[row]`, or the model's fuel running out while
the batch loop is still going. -/
inductive Exit where
  | returned
  | fatal (f : Fatal)
  | indexPanic
  | outOfFuel
  deriving DecidableEq, Repr

/-- The state threaded through `readParquet`: the decoder, the records handed to
`writer.Write` so far and the decoder calls issued so far, oldest first. -/
structure St (σ : Type) where
  pr : σ
  records : List (List String)
  calls : List Call

/-- What a run of `readParquet` did: the records handed to `writer.Write`, the
decoder calls, and how the run ended.  Flushing the writer to standard output is
not part of the model. -/
structure Run where
  records : List (List String)
  calls : List Call
  exit : Exit
  deriving DecidableEq, Repr

/-! ## `showSchema` (lines 15-33) -/

/-- `showSchema`, from the point where the reader is open: the lines printed by
the `fmt.Println` calls, in order.  `fmt.Println("-", x)` separates its operands
with one space. -/
def showSchema {σ α : Type} (D : Decoder σ α) (pr : σ) : List String :=
  "Parquet File Schema:" ::
    (D.ValueColumns pr).map (fun col => "-" ++ " " ++ cleanColumnName col)

/-! ## `readParquet` (lines 44-133) -/

/-- Lines 70-74: the first requested column that is not a key of `validCols`. -/
def checkColumns (validCols : List String) : List String → Option String
  | [] => none
  | col :: rest => if col ∈ validCols then checkColumns validCols rest else some col

/-- Lines 58-75: the selected columns, or the fatal error of line 72.  The keys
of the map `validCols` are exactly the entries of `availableColumns`. -/
def resolveColumns (valueColumns columns : List String) : Except Fatal (List String) :=
  let availableColumns := valueColumns.map cleanColumnName
  if columns.length = 0 then .ok availableColumns
  else
    match checkColumns availableColumns columns with
    | some col => .error (.unknownColumn col)
    | none => .ok columns

/-- Lines 82-84: the size after clamping. -/
def clampSize (offset size numRows : Int) : Int :=
  if addInt offset size > numRows then subInt numRows offset else size

/-- Lines 93-96: the batch size. -/
def batchSizeOf (size : Int) : Int :=
  if size < 100 then size else 100

/-- Lines 100-103: the length of the batch that starts at `i`. -/
def toReadAt (offset size batchSize i : Int) : Int :=
  if subInt (addInt offset size) i < batchSize then subInt (addInt offset size) i else batchSize

/-- Lines 99-103 and the loop's control flow: `for i := offset; i < offset+size;
i += batchSize`, with `toRead` computed at the head of each iteration and the
rest of the iteration given as `body`.  A `some` exit of the body ends the run
(a `log.Fatalf` or a panic). -/
def forBatches {S : Type} (offset size batchSize : Int)
    (body : Int → Int → S → S × Option Exit) : Nat → Int → S → S × Exit
  | 0, i, s => if i < addInt offset size then (s, .outOfFuel) else (s, .returned)
  | fuel + 1, i, s =>
    if i < addInt offset size then
      match body i (toReadAt offset size batchSize i) s with
      | (s1, some e) => (s1, e)
      | (s1, none) => forBatches offset size batchSize body fuel (addInt i batchSize) s1
    else (s, .returned)

/-- Lines 105-110: the one-time skip before the first batch. -/
def skipStep {σ α : Type} (D : Decoder σ α) (offset i : Int) (st : St σ) : St σ × Option Exit :=
  if i = offset ∧ offset > 0 then
    match D.SkipRows st.pr offset with
    | .error err => ({ st with calls := st.calls ++ [.SkipRows offset] },
        some (.fatal (.skipFailed offset err)))
    | .ok pr1 => ({ st with pr := pr1, calls := st.calls ++ [.SkipRows offset] }, none)
  else (st, none)

/-- Lines 113-122: one `ReadColumnByPath` per selected column, in order; the
buffers are collected in `columnData`. -/
def readColumns {σ α : Type} (D : Decoder σ α) (toRead : Int) :
    List String → St σ → List (List α) → St σ × Except Fatal (List (List α))
  | [], st, columnData => (st, .ok columnData)
  | col :: rest, st, columnData =>
    match D.ReadColumnByPath st.pr (columnPath col) toRead with
    | .error err =>
      ({ st with calls := st.calls ++ [.ReadColumnByPath (columnPath col) toRead] },
        .error (.readFailed col err))
    | .ok (values, pr1) =>
      readColumns D toRead rest
        { st with pr := pr1, calls := st.calls ++ [.ReadColumnByPath (columnPath col) toRead] }
        (columnData ++ [values])

/-- Line 128, one field: `fmt.Sprintf("%v", colValues[row])`; `none` is the index
panic. -/
def fieldAt {α : Type} (fmt : α → String) (colValues : List α) (row : Nat) : Option String :=
  (colValues[row]?).map fmt

/-- Lines 126-129: the record of one row, field by field in the order of
`columnData`, or `none` when an index is out of range. -/
def buildRecord {α : Type} (fmt : α → String) : List (List α) → Nat → Option (List String)
  | [], _ => some []
  | colValues :: rest, row =>
    match fieldAt fmt colValues row with
    | none => none
    | some field =>
      match buildRecord fmt rest row with
      | none => none
      | some record => some (field :: record)

/-- Lines 125-131: the rows of one batch, written in order. -/
def writeRows {σ α : Type} (fmt : α → String) (columnData : List (List α)) :
    List Nat → St σ → St σ × Option Exit
  | [], st => (st, none)
  | row :: rest, st =>
    match buildRecord fmt columnData row with
    | none => (st, some .indexPanic)
    | some record => writeRows fmt columnData rest { st with records := st.records ++ [record] }

/-- Lines 105-131: the body of the batch loop. -/
def execBatch {σ α : Type} (D : Decoder σ α) (fmt : α → String) (offset : Int)
    (columns : List String) (i toRead : Int) (st : St σ) : St σ × Option Exit :=
  match skipStep D offset i st with
  | (st1, some e) => (st1, some e)
  | (st1, none) =>
    match readColumns D toRead columns st1 [] with
    | (st2, .error f) => (st2, some (.fatal f))
    | (st2, .ok columnData) => writeRows fmt columnData (List.range toRead.toNat) st2

/-- `readParquet`, from the point where the reader is open.  `fmt` is the
`"%v"` rendering of a value; `fuel` bounds the number of loop iterations the
model follows. -/
def readParquet {σ α : Type} (D : Decoder σ α) (fmt : α → String) (fuel : Nat) (pr : σ)
    (offset size : Int) (columns : List String) : Run :=
  match resolveColumns (D.ValueColumns pr) columns with
  | .error f => ⟨[], [], .fatal f⟩
  | .ok columns =>
    let numRows := D.GetNumRows pr
    if offset ≥ numRows then ⟨[], [], .fatal (.offsetOutOfRange offset numRows)⟩
    else
      let size := clampSize offset size numRows
      let batchSize := batchSizeOf size
      let r := forBatches offset size batchSize (execBatch D fmt offset columns) fuel offset
        ⟨pr, [columns], []⟩
      ⟨r.1.records, r.1.calls, r.2⟩

/-- Lines 77-103 alone: the batches `(i, toRead)` the loop of `readParquet` goes
through, in order, when no iteration ends the run. -/
def batchPlan (fuel : Nat) (offset size numRows : Int) : List (Int × Int) × Exit :=
  forBatches offset (clampSize offset size numRows) (batchSizeOf (clampSize offset size numRows))
    (fun i toRead plan => (plan ++ [(i, toRead)], none)) fuel offset []

/-! ## The decoder as a table -/

/-- Modelled from the spec: the external decoder as a table of `numRows` rows,
`value path row` being the value of column `path` at file row `row`, with one
read cursor per column path. -/
structure Table (α : Type) where
  schema : List String
  numRows : Nat
  value : String → Nat → α
  cursor : String → Nat

/-- Modelled from the spec: `SkipRows(n)` advances every column's cursor by `n`. -/
def Table.SkipRows {α : Type} (t : Table α) (num : Int) : Except String (Table α) :=
  .ok { t with cursor := fun p => t.cursor p + num.toNat }

/-- Modelled from the spec: `ReadColumnByPath(p, k)` returns the next `k` values
of column `p` (fewer when the column ends first) and advances that column's
cursor past them; a path that is not in the schema is an error. -/
def Table.ReadColumnByPath {α : Type} (t : Table α) (path : String) (num : Int) :
    Except String (List α × Table α) :=
  if path ∈ t.schema then
    let k := min num.toNat (t.numRows - t.cursor path)
    .ok ((List.range k).map (fun r => t.value path (t.cursor path + r)),
      { t with cursor := fun p => if p = path then t.cursor path + k else t.cursor p })
  else .error "path not found"

/-- Modelled from the spec: the table as a `Decoder`. -/
def tableDecoder (α : Type) : Decoder (Table α) α where
  ValueColumns := fun t => t.schema
  GetNumRows := fun t => (t.numRows : Int)
  SkipRows := Table.SkipRows
  ReadColumnByPath := Table.ReadColumnByPath

/-- A freshly opened table: every cursor at row 0. -/
def Table.fresh {α : Type} (schema : List String) (numRows : Nat) (value : String → Nat → α) :
    Table α :=
  ⟨schema, numRows, value, fun _ => 0⟩

/-- The file of the scenarios: columns `id`, `name`, `score` and 25 rows; the
value of a column at a row is the text `<row>@<column name>`. -/
def scenarioFile : Table String :=
  Table.fresh ["Schema\x01id", "Schema\x01name", "Schema\x01score"] 25
    (fun path row => toString row ++ "@" ++ cleanColumnName path)

/-- A decoder whose every column read returns `count` values, whatever number
was asked for. -/
def fixedCountDecoder (count : Nat) : Decoder Unit Nat where
  ValueColumns := fun _ => ["Schema\x01id"]
  GetNumRows := fun _ => 25
  SkipRows := fun _ _ => .ok ()
  ReadColumnByPath := fun _ _ _ => .ok (List.range count, ())

/-- A decoder of the columns `id`, `name`, `score` whose read of `name` fails.
Its state counts the column reads that succeeded; a read that succeeds returns
`num + 2` values. -/
def brokenNameDecoder : Decoder Nat Nat where
  ValueColumns := fun _ => ["Schema\x01id", "Schema\x01name", "Schema\x01score"]
  GetNumRows := fun _ => 25
  SkipRows := fun n _ => .ok n
  ReadColumnByPath := fun n path num =>
    if path = "Schema\x01name" then .error "broken page"
    else .ok ((List.range (num.toNat + 2)).map (fun r => 10 * n + r), n + 1)

/-- A 25-row file whose one schema identifier has another root than `Schema`. -/
def rootedFile : Table String :=
  Table.fresh ["Parquet_go_root\x01id"] 25 (fun path row => toString row ++ "@" ++ path)

/-- A table of 2^63 - 1 rows with the one column `id`, whose value at a row is
the row number. -/
def hugeFile : Table Nat :=
  Table.fresh ["Schema\x01id"] 9223372036854775807 (fun _ row => row)

/-! ## Column names: stripping and qualifying -/

theorem drop_append_data (p s : String) : (⟨(p ++ s).data.drop p.length⟩ : String) = s := by
  apply String.ext
  show List.drop p.data.length (p ++ s).data = s.data
  rw [String.data_append, List.drop_left]

theorem append_drop_data (p s : String) (h : p.data.isPrefixOf s.data = true) :
    p ++ (⟨s.data.drop p.length⟩ : String) = s := by
  rw [List.isPrefixOf_iff_prefix] at h
  obtain ⟨t, ht⟩ := h
  apply String.ext
  rw [String.data_append]
  show p.data ++ List.drop p.data.length s.data = s.data
  rw [← ht, List.drop_left]

theorem hasPrefix_columnPath (col : String) : HasPrefix (columnPath col) columnNamespace = true := by
  unfold HasPrefix columnPath
  rw [List.isPrefixOf_iff_prefix, String.data_append]
  exact List.prefix_append _ _

/-- Stripping a qualified name gives the name back. -/
theorem clean_columnPath (col : String) : cleanColumnName (columnPath col) = col := by
  unfold cleanColumnName
  rw [if_pos (hasPrefix_columnPath col)]
  exact drop_append_data columnNamespace col

theorem columnPath_injective {a b : String} (h : columnPath a = columnPath b) : a = b := by
  have h2 := congrArg cleanColumnName h
  rwa [clean_columnPath, clean_columnPath] at h2

/-- A qualified name that is a schema identifier is one of the available
columns. -/
theorem mem_available_of_path_mem {valueColumns : List String} {col : String}
    (h : columnPath col ∈ valueColumns) : col ∈ valueColumns.map cleanColumnName := by
  rw [List.mem_map]
  exact ⟨columnPath col, h, clean_columnPath col⟩

/-- Claim C6: for every identifier that begins with the namespace marker
`"Schema\x01"`, qualifying the stripped name reproduces the identifier, and the
column read that `readParquet` issues for the stripped name (line 117), with any
decoder, is a `ReadColumnByPath` on exactly that identifier. -/
theorem qualify_clean_roundtrip {σ α : Type} (D : Decoder σ α) (toRead : Int) (st : St σ)
    (id : String) (h : HasPrefix id columnNamespace = true) :
    columnNamespace ++ cleanColumnName id = id ∧ columnPath (cleanColumnName id) = id ∧
      (readColumns D toRead [cleanColumnName id] st []).1.calls =
        st.calls ++ [.ReadColumnByPath id toRead] := by
  have key : columnNamespace ++ cleanColumnName id = id := by
    unfold cleanColumnName
    rw [if_pos h]
    exact append_drop_data columnNamespace id h
  have key2 : columnPath (cleanColumnName id) = id := key
  refine ⟨key, key2, ?_⟩
  unfold readColumns
  rw [key2]
  split
  · rfl
  · simp [readColumns]

/-- Claim C6 at the identifier `"Schema\x01score"` of the scenario file. -/
theorem qualify_clean_roundtrip_witness :
    HasPrefix "Schema\x01score" columnNamespace = true ∧
      (columnNamespace ++ cleanColumnName "Schema\x01score" = "Schema\x01score" ∧
        columnPath (cleanColumnName "Schema\x01score") = "Schema\x01score" ∧
        (readColumns (tableDecoder String) 5 [cleanColumnName "Schema\x01score"]
          ⟨scenarioFile, [], []⟩ []).1.calls =
            [] ++ [.ReadColumnByPath "Schema\x01score" 5]) :=
  ⟨by decide,
    qualify_clean_roundtrip (tableDecoder String) 5 ⟨scenarioFile, [], []⟩ "Schema\x01score"
      (by decide)⟩

/-! ## Schema listing -/

/-- Claim C9, as the code has it: `showSchema` prints the title line
`Parquet File Schema:` first and then exactly one line per schema identifier, in
schema order, each `"- "` followed by the stripped column name. -/
theorem showSchema_lines {σ α : Type} (D : Decoder σ α) (pr : σ) :
    showSchema D pr =
        "Parquet File Schema:" :: (D.ValueColumns pr).map (fun id => "- " ++ cleanColumnName id) ∧
      (showSchema D pr).length = (D.ValueColumns pr).length + 1 := by
  have h : ∀ s : String, "-" ++ " " ++ s = "- " ++ s := fun s => by
    apply String.ext
    simp [String.data_append]
  constructor
  · simp [showSchema, h]
  · simp [showSchema]

/-- Claim C9 as stated fails on the scenario file: the lines printed for the
columns `id`, `name`, `score` are not just `- id`, `- name`, `- score`; there are
four lines and the first is the title. -/
theorem showSchema_has_title_line :
    showSchema (tableDecoder String) scenarioFile ≠ ["- id", "- name", "- score"] ∧
      showSchema (tableDecoder String) scenarioFile =
        ["Parquet File Schema:", "- id", "- name", "- score"] := by
  decide

/-! ## Column validation -/

theorem checkColumns_none (validCols : List String) (columns : List String) :
    checkColumns validCols columns = none ↔ ∀ c ∈ columns, c ∈ validCols := by
  induction columns with
  | nil => simp [checkColumns]
  | cons c rest ih =>
    by_cases hc : c ∈ validCols <;> simp [checkColumns, hc, ih]

theorem checkColumns_some (validCols : List String) (columns : List String) (name : String) :
    checkColumns validCols columns = some name ↔
      ∃ before after, columns = before ++ name :: after ∧ (∀ c ∈ before, c ∈ validCols) ∧
        name ∉ validCols := by
  induction columns with
  | nil => simp [checkColumns]
  | cons c rest ih =>
    by_cases hc : c ∈ validCols
    · simp only [checkColumns, hc, if_true, ih]
      constructor
      · rintro ⟨before, after, h1, h2, h3⟩
        exact ⟨c :: before, after, by simp [h1], by simpa [hc] using h2, h3⟩
      · rintro ⟨before, after, h1, h2, h3⟩
        cases before with
        | nil =>
          simp at h1
          exact absurd (h1.1 ▸ hc) h3
        | cons b before =>
          simp at h1
          exact ⟨before, after, h1.2, fun x hx => h2 x (by simp [hx]), h3⟩
    · simp only [checkColumns, hc, if_false]
      constructor
      · intro h
        injection h with h
        exact ⟨[], rest, by simp [h], by simp, h ▸ hc⟩
      · rintro ⟨before, after, h1, h2, h3⟩
        cases before with
        | nil =>
          simp at h1
          simp [h1.1]
        | cons b before =>
          simp at h1
          exact absurd (h2 b (by simp)) (h1.1 ▸ hc)

theorem resolveColumns_nil (valueColumns : List String) :
    resolveColumns valueColumns [] = .ok (valueColumns.map cleanColumnName) := by
  simp [resolveColumns]

theorem resolveColumns_ok_of_mem (valueColumns columns : List String) (hne : columns ≠ [])
    (h : ∀ c ∈ columns, c ∈ valueColumns.map cleanColumnName) :
    resolveColumns valueColumns columns = .ok columns := by
  have hlen : columns.length ≠ 0 := by simpa using hne
  have hc := (checkColumns_none (valueColumns.map cleanColumnName) columns).2 h
  simp only [resolveColumns, hlen, if_false, hc]

theorem resolveColumns_error (valueColumns columns : List String) (f : Fatal) :
    resolveColumns valueColumns columns = .error f ↔
      columns ≠ [] ∧ ∃ name, f = .unknownColumn name ∧
        checkColumns (valueColumns.map cleanColumnName) columns = some name := by
  unfold resolveColumns
  by_cases hl : columns.length = 0
  · have : columns = [] := by simpa using hl
    simp [this]
  · have hne : columns ≠ [] := by simpa using hl
    simp only [hl, if_false]
    cases hc : checkColumns (valueColumns.map cleanColumnName) columns with
    | none => simp [hne]
    | some name =>
      simp only [hne, ne_eq, not_false_eq_true, true_and]
      constructor
      · intro h
        injection h with h
        exact ⟨name, h.symm, rfl⟩
      · rintro ⟨name2, h1, h2⟩
        injection h2 with h2
        rw [h1, h2]

/-- Claim C5: with `avail` the stripped schema identifiers in schema order, an
empty request selects exactly `avail`; a non-empty request fails if and only if
some requested name is not in `avail`; when it fails the name reported is the
first requested name that is not in `avail`, and the run hands nothing to the
writer and issues no decoder call; when it succeeds the selected columns are the
requested list unchanged. -/
theorem column_validation {σ α : Type} (D : Decoder σ α) (fmt : α → String) (fuel : Nat)
    (pr : σ) (offset size : Int) (columns : List String) :
    (columns = [] →
        resolveColumns (D.ValueColumns pr) columns =
          .ok ((D.ValueColumns pr).map cleanColumnName)) ∧
      (columns ≠ [] →
        ((∃ f, resolveColumns (D.ValueColumns pr) columns = .error f) ↔
          ∃ c ∈ columns, c ∉ (D.ValueColumns pr).map cleanColumnName)) ∧
      (∀ f, resolveColumns (D.ValueColumns pr) columns = .error f →
        ∃ name before after, f = .unknownColumn name ∧ columns = before ++ name :: after ∧
          (∀ c ∈ before, c ∈ (D.ValueColumns pr).map cleanColumnName) ∧
          name ∉ (D.ValueColumns pr).map cleanColumnName ∧
          readParquet D fmt fuel pr offset size columns =
            ⟨[], [], .fatal (.unknownColumn name)⟩) ∧
      (columns ≠ [] → (∀ c ∈ columns, c ∈ (D.ValueColumns pr).map cleanColumnName) →
        resolveColumns (D.ValueColumns pr) columns = .ok columns) := by
  refine ⟨?_, ?_, ?_, ?_⟩
  · intro h
    rw [h, resolveColumns_nil]
  · intro hne
    constructor
    · rintro ⟨f, hf⟩
      obtain ⟨_, name, _, hc⟩ := (resolveColumns_error _ _ _).1 hf
      obtain ⟨before, after, h1, _, h3⟩ := (checkColumns_some _ _ _).1 hc
      exact ⟨name, by simp [h1], h3⟩
    · rintro ⟨c, hc, hnot⟩
      cases hres : resolveColumns (D.ValueColumns pr) columns with
      | error f => exact ⟨f, rfl⟩
      | ok sel =>
        exfalso
        unfold resolveColumns at hres
        have hl : columns.length ≠ 0 := by simpa using hne
        simp only [hl, if_false] at hres
        cases hcc : checkColumns ((D.ValueColumns pr).map cleanColumnName) columns with
        | none => exact hnot ((checkColumns_none _ _).1 hcc c hc)
        | some name => simp [hcc] at hres
  · intro f hf
    obtain ⟨_, name, hname, hc⟩ := (resolveColumns_error _ _ _).1 hf
    obtain ⟨before, after, h1, h2, h3⟩ := (checkColumns_some _ _ _).1 hc
    refine ⟨name, before, after, hname, h1, h2, h3, ?_⟩
    unfold readParquet
    rw [hf, hname]
  · intro hne h
    exact resolveColumns_ok_of_mem _ _ hne h

/-! ## The batch loop, for any body -/

/-- The loop only moves the state along a reflexive, transitive relation that
every run of the body respects. -/
theorem forBatches_rel {S : Type} (R : S → S → Prop) (hrefl : ∀ s, R s s)
    (htrans : ∀ a b c, R a b → R b c → R a c) (offset size batchSize : Int)
    (body : Int → Int → S → S × Option Exit) (hbody : ∀ i toRead s, R s (body i toRead s).1)
    (fuel : Nat) (i : Int) (s : S) :
    R s (forBatches offset size batchSize body fuel i s).1 := by
  induction fuel generalizing i s with
  | zero =>
    unfold forBatches
    split <;> exact hrefl s
  | succ fuel ih =>
    unfold forBatches
    split
    · have hb := hbody i (toReadAt offset size batchSize i) s
      split
      · next s1 e heq =>
        rw [heq] at hb
        exact hb
      · next s1 heq =>
        rw [heq] at hb
        exact htrans _ _ _ hb (ih _ _)
    · exact hrefl s

/-- The loop ends by returning, by running out of fuel, or with an exit of its
body. -/
theorem forBatches_exit {S : Type} (offset size batchSize : Int)
    (body : Int → Int → S → S × Option Exit) (fuel : Nat) (i : Int) (s : S) :
    (forBatches offset size batchSize body fuel i s).2 = .returned ∨
      (forBatches offset size batchSize body fuel i s).2 = .outOfFuel ∨
      ∃ j toRead s1, (body j toRead s1).2 = some (forBatches offset size batchSize body fuel i s).2 := by
  induction fuel generalizing i s with
  | zero =>
    unfold forBatches
    split <;> simp
  | succ fuel ih =>
    unfold forBatches
    split
    · split
      · next s1 e heq =>
        right; right
        exact ⟨_, _, _, by rw [heq]⟩
      · next s1 heq => exact ih _ _
    · simp

/-! ## The body of the loop, for any decoder -/

theorem skipStep_records {σ α : Type} (D : Decoder σ α) (offset i : Int) (st : St σ) :
    (skipStep D offset i st).1.records = st.records := by
  unfold skipStep
  split
  · split <;> rfl
  · rfl

theorem skipStep_exit {σ α : Type} (D : Decoder σ α) (offset i : Int) (st : St σ) (e : Exit)
    (h : (skipStep D offset i st).2 = some e) : ∃ err, e = .fatal (.skipFailed offset err) := by
  unfold skipStep at h
  split at h
  · split at h
    · next err _ =>
      injection h with h
      exact ⟨err, h.symm⟩
    · simp at h
  · simp at h

theorem readColumns_records {σ α : Type} (D : Decoder σ α) (toRead : Int) (columns : List String)
    (st : St σ) (columnData : List (List α)) :
    (readColumns D toRead columns st columnData).1.records = st.records := by
  induction columns generalizing st columnData with
  | nil => rfl
  | cons col rest ih =>
    unfold readColumns
    split
    · rfl
    · rw [ih]

theorem readColumns_error {σ α : Type} (D : Decoder σ α) (toRead : Int) (columns : List String)
    (st : St σ) (columnData : List (List α)) (f : Fatal)
    (h : (readColumns D toRead columns st columnData).2 = .error f) :
    ∃ col err, col ∈ columns ∧ f = .readFailed col err := by
  induction columns generalizing st columnData with
  | nil => simp [readColumns] at h
  | cons col rest ih =>
    unfold readColumns at h
    split at h
    · next err _ =>
      injection h with h
      exact ⟨col, err, by simp, h.symm⟩
    · obtain ⟨c, err, hc, hf⟩ := ih _ _ h
      exact ⟨c, err, by simp [hc], hf⟩

theorem writeRows_records {σ α : Type} (fmt : α → String) (columnData : List (List α))
    (rows : List Nat) (st : St σ) :
    ∃ written, (writeRows fmt columnData rows st).1.records = st.records ++ written := by
  induction rows generalizing st with
  | nil => exact ⟨[], by simp [writeRows]⟩
  | cons row rest ih =>
    unfold writeRows
    split
    · exact ⟨[], by simp⟩
    · next record _ =>
      obtain ⟨w, hw⟩ := ih { st with records := st.records ++ [record] }
      exact ⟨record :: w, by rw [hw]; simp⟩

theorem writeRows_exit {σ α : Type} (fmt : α → String) (columnData : List (List α))
    (rows : List Nat) (st : St σ) (e : Exit)
    (h : (writeRows fmt columnData rows st).2 = some e) : e = .indexPanic := by
  induction rows generalizing st with
  | nil => simp [writeRows] at h
  | cons row rest ih =>
    unfold writeRows at h
    split at h
    · injection h with h
      exact h.symm
    · exact ih _ h

/-- A batch only appends to the records written so far. -/
theorem execBatch_records {σ α : Type} (D : Decoder σ α) (fmt : α → String) (offset : Int)
    (columns : List String) (i toRead : Int) (st : St σ) :
    ∃ written, (execBatch D fmt offset columns i toRead st).1.records = st.records ++ written := by
  unfold execBatch
  have h1 := skipStep_records D offset i st
  split
  · next st1 e heq =>
    rw [heq] at h1
    replace h1 : st1.records = st.records := h1
    exact ⟨[], by simp [h1]⟩
  · next st1 heq =>
    rw [heq] at h1
    replace h1 : st1.records = st.records := h1
    have h2 := readColumns_records D toRead columns st1 []
    split
    · next st2 f heq2 =>
      rw [heq2] at h2
      replace h2 : st2.records = st1.records := h2
      exact ⟨[], by simp [h2, h1]⟩
    · next st2 columnData heq2 =>
      rw [heq2] at h2
      replace h2 : st2.records = st1.records := h2
      obtain ⟨w, hw⟩ := writeRows_records fmt columnData (List.range toRead.toNat) st2
      exact ⟨w, by rw [hw, h2, h1]⟩

/-- A batch ends the run only with a failed skip, a failed column read or an
index panic. -/
theorem execBatch_exit {σ α : Type} (D : Decoder σ α) (fmt : α → String) (offset : Int)
    (columns : List String) (i toRead : Int) (st : St σ) (e : Exit)
    (h : (execBatch D fmt offset columns i toRead st).2 = some e) :
    (∃ err, e = .fatal (.skipFailed offset err)) ∨
      (∃ col err, col ∈ columns ∧ e = .fatal (.readFailed col err)) ∨ e = .indexPanic := by
  unfold execBatch at h
  split at h
  · next st1 e1 heq =>
    injection h with h
    have := skipStep_exit D offset i st e1 (by rw [heq])
    obtain ⟨err, herr⟩ := this
    exact Or.inl ⟨err, by rw [← h, herr]⟩
  · next st1 heq =>
    split at h
    · next st2 f heq2 =>
      injection h with h
      obtain ⟨col, err, hc, hf⟩ := readColumns_error D toRead columns st1 [] f (by rw [heq2])
      exact Or.inr (Or.inl ⟨col, err, hc, by rw [← h, hf]⟩)
    · next st2 columnData heq2 =>
      exact Or.inr (Or.inr (writeRows_exit fmt columnData _ st2 e h))

/-- Once the offset check has passed, the header is the first record handed to
the writer, whatever happens afterwards. -/
theorem readParquet_header {σ α : Type} (D : Decoder σ α) (fmt : α → String) (fuel : Nat)
    (pr : σ) (offset size : Int) (columns sel : List String)
    (hsel : resolveColumns (D.ValueColumns pr) columns = .ok sel)
    (hlt : offset < D.GetNumRows pr) :
    ∃ written, (readParquet D fmt fuel pr offset size columns).records = sel :: written := by
  unfold readParquet
  rw [hsel]
  simp only [ge_iff_le, not_le.mpr hlt, if_false]
  have := forBatches_rel (fun a b : St σ => ∃ w, b.records = a.records ++ w)
    (fun s => ⟨[], by simp⟩)
    (fun a b c ⟨w1, h1⟩ ⟨w2, h2⟩ => ⟨w1 ++ w2, by rw [h2, h1]; simp⟩)
    offset (clampSize offset size (D.GetNumRows pr))
    (batchSizeOf (clampSize offset size (D.GetNumRows pr)))
    (execBatch D fmt offset sel) (fun i toRead s => execBatch_records D fmt offset sel i toRead s)
    fuel offset ⟨pr, [sel], []⟩
  obtain ⟨w, hw⟩ := this
  exact ⟨w, by simpa using hw⟩

/-- Claim C4: when `offset >= total_rows` (zero rows included) the run ends with
the offset-out-of-range error reporting `offset` and `total_rows`, with no record
handed to the writer, not even the header, and no decoder skip or read issued;
when `offset < total_rows` the offset check does not fail: the header is written
and the run does not end with that error. -/
theorem offset_out_of_range {σ α : Type} (D : Decoder σ α) (fmt : α → String) (fuel : Nat)
    (pr : σ) (offset size : Int) (columns sel : List String)
    (hsel : resolveColumns (D.ValueColumns pr) columns = .ok sel) :
    (D.GetNumRows pr ≤ offset →
        readParquet D fmt fuel pr offset size columns =
          ⟨[], [], .fatal (.offsetOutOfRange offset (D.GetNumRows pr))⟩) ∧
      (offset < D.GetNumRows pr →
        (readParquet D fmt fuel pr offset size columns).records.head? = some sel ∧
          ∀ o n, (readParquet D fmt fuel pr offset size columns).exit ≠
            .fatal (.offsetOutOfRange o n)) := by
  constructor
  · intro h
    unfold readParquet
    rw [hsel]
    simp only [ge_iff_le, h, if_true]
  · intro hlt
    constructor
    · obtain ⟨w, hw⟩ := readParquet_header D fmt fuel pr offset size columns sel hsel hlt
      rw [hw]
      rfl
    · intro o n
      unfold readParquet
      rw [hsel]
      simp only [ge_iff_le, not_le.mpr hlt, if_false]
      intro hex
      rcases forBatches_exit offset (clampSize offset size (D.GetNumRows pr))
        (batchSizeOf (clampSize offset size (D.GetNumRows pr)))
        (execBatch D fmt offset sel) fuel offset ⟨pr, [sel], []⟩ with h | h | ⟨j, t, s1, h⟩
      · rw [hex] at h; cases h
      · rw [hex] at h; cases h
      · rw [hex] at h
        rcases execBatch_exit D fmt offset sel j t s1 _ h with ⟨err, he⟩ | ⟨c, err, _, he⟩ | he
          <;> cases he

/-- Claim C4 on the 25-row scenario file at offset 25 (scenario D). -/
theorem offset_out_of_range_witness :
    resolveColumns ((tableDecoder String).ValueColumns scenarioFile) ["id", "score"] =
        .ok ["id", "score"] ∧
      (readParquet (tableDecoder String) id 1 scenarioFile 25 10 ["id", "score"] =
        ⟨[], [], .fatal (.offsetOutOfRange 25 25)⟩) :=
  ⟨by decide,
    (offset_out_of_range (tableDecoder String) id 1 scenarioFile 25 10 ["id", "score"]
      ["id", "score"] (by decide)).1 (by decide)⟩

/-! ## Fuel -/

theorem forBatches_done {S : Type} (offset size batchSize : Int)
    (body : Int → Int → S → S × Option Exit) (fuel : Nat) (i : Int) (s : S)
    (h : ¬ i < addInt offset size) :
    forBatches offset size batchSize body fuel i s = (s, .returned) := by
  cases fuel <;> simp [forBatches, h]

theorem forBatches_step {S : Type} (offset size batchSize : Int)
    (body : Int → Int → S → S × Option Exit) (fuel : Nat) (i : Int) (s : S)
    (h : i < addInt offset size) :
    forBatches offset size batchSize body (fuel + 1) i s =
      match body i (toReadAt offset size batchSize i) s with
      | (s1, some e) => (s1, e)
      | (s1, none) => forBatches offset size batchSize body fuel (addInt i batchSize) s1 := by
  simp [forBatches, h]

/-- A run of the loop that did not run out of fuel is the same with more fuel. -/
theorem forBatches_more_fuel {S : Type} (offset size batchSize : Int)
    (body : Int → Int → S → S × Option Exit) (fuel extra : Nat) (i : Int) (s : S)
    (h : (forBatches offset size batchSize body fuel i s).2 ≠ .outOfFuel) :
    forBatches offset size batchSize body (fuel + extra) i s =
      forBatches offset size batchSize body fuel i s := by
  induction fuel generalizing i s with
  | zero =>
    by_cases hi : i < addInt offset size
    · simp [forBatches, hi] at h
    · rw [forBatches_done _ _ _ _ _ _ _ hi, forBatches_done _ _ _ _ _ _ _ hi]
  | succ fuel ih =>
    by_cases hi : i < addInt offset size
    · have e : fuel + 1 + extra = (fuel + extra) + 1 := by omega
      rw [e, forBatches_step _ _ _ _ _ _ _ hi]
      rw [forBatches_step _ _ _ _ _ _ _ hi] at h ⊢
      generalize body i (toReadAt offset size batchSize i) s = r at h ⊢
      obtain ⟨s1, _ | e1⟩ := r
      · exact ih _ _ h
      · rfl
    · rw [forBatches_done _ _ _ _ _ _ _ hi, forBatches_done _ _ _ _ _ _ _ hi]

/-- A run of `readParquet` that did not run out of fuel is the same with more
fuel. -/
theorem readParquet_more_fuel {σ α : Type} (D : Decoder σ α) (fmt : α → String)
    (fuel extra : Nat) (pr : σ) (offset size : Int) (columns : List String)
    (h : (readParquet D fmt fuel pr offset size columns).exit ≠ .outOfFuel) :
    readParquet D fmt (fuel + extra) pr offset size columns =
      readParquet D fmt fuel pr offset size columns := by
  unfold readParquet at h ⊢
  split
  · rfl
  · next sel hsel =>
    rw [hsel] at h
    by_cases ho : offset ≥ D.GetNumRows pr
    · simp only [ho, if_true]
    · simp only [ho, if_false] at h ⊢
      rw [forBatches_more_fuel _ _ _ _ _ _ _ _ h]

/-! ## Runs on concrete files -/

/-- Claim C3 fails at offset 20, size 2^63-1 on the 25-row scenario file: the
sum `offset+size` exceeds 25 as an integer but wraps to a negative `int`, so
the size is not clamped, the loop condition is false at once and the run returns
after the header with no data row (the claim: rows 20..24).  With size 10, where
the sum does not wrap, the clamp works and rows 20..24 are exported. -/
theorem huge_size_is_not_clamped :
    IsInt 9223372036854775807 ∧ (20 : Int) + 9223372036854775807 > 25 ∧
      addInt 20 9223372036854775807 = -9223372036854775789 ∧
      clampSize 20 9223372036854775807 25 = 9223372036854775807 ∧
      (∀ fuel, readParquet (tableDecoder String) id fuel scenarioFile 20 9223372036854775807 [] =
        ⟨[["id", "name", "score"]], [], .returned⟩) ∧
      clampSize 20 10 25 = 5 ∧
      (∀ fuel, (readParquet (tableDecoder String) id (1 + fuel) scenarioFile 20 10 ["id"]).records =
        [["id"], ["20@id"], ["21@id"], ["22@id"], ["23@id"], ["24@id"]]) := by
  refine ⟨by decide, by decide, by decide, by decide, ?_, by decide, ?_⟩
  · intro fuel
    have h := readParquet_more_fuel (tableDecoder String) id 0 fuel scenarioFile 20
      9223372036854775807 [] (by decide)
    rw [Nat.zero_add] at h
    rw [h]
    decide
  · intro fuel
    rw [readParquet_more_fuel (tableDecoder String) id 1 fuel scenarioFile 20 10 ["id"]
      (by decide)]
    decide

/-- Claim C8 fails at offset -3 on the 25-row scenario file: with size 10 the
run is not rejected, it writes the header, issues a column read of 10 values and
exports the 10 rows 0..9; with size 30 the size is "clamped" to 28, the column
read returns the 25 values there are, 25 rows are written and the run ends in an
index panic. -/
theorem negative_offset_is_not_rejected :
    (∀ fuel, readParquet (tableDecoder String) id (1 + fuel) scenarioFile (-3) 10 ["id"] =
        ⟨[["id"], ["0@id"], ["1@id"], ["2@id"], ["3@id"], ["4@id"], ["5@id"], ["6@id"],
            ["7@id"], ["8@id"], ["9@id"]],
          [.ReadColumnByPath "Schema\x01id" 10], .returned⟩) ∧
      (∀ fuel, (readParquet (tableDecoder String) id (1 + fuel) scenarioFile (-3) 30 ["id"]).calls =
          [.ReadColumnByPath "Schema\x01id" 28] ∧
        (readParquet (tableDecoder String) id (1 + fuel) scenarioFile (-3) 30 ["id"]).records.length =
          26 ∧
        (readParquet (tableDecoder String) id (1 + fuel) scenarioFile (-3) 30 ["id"]).exit =
          .indexPanic) := by
  constructor
  · intro fuel
    rw [readParquet_more_fuel (tableDecoder String) id 1 fuel scenarioFile (-3) 10 ["id"]
      (by decide)]
    decide
  · intro fuel
    rw [readParquet_more_fuel (tableDecoder String) id 1 fuel scenarioFile (-3) 30 ["id"]
      (by decide)]
    decide

/-- Claim C10 fails for the request `id,id` on the 25-row scenario file:
validation accepts the list, and the second read of the path `Schema\x01id`
continues where the first stopped.  At offset 0, size 3 the second field of data
record `k` is the value at row `3 + k`, not at row `k`; at offset 20, size 5 the
second buffer is empty while the batch has 5 rows, and the run ends in an index
panic after the header. -/
theorem repeated_column_is_misaligned :
    resolveColumns ((tableDecoder String).ValueColumns scenarioFile) ["id", "id"] =
        .ok ["id", "id"] ∧
      (∀ fuel, readParquet (tableDecoder String) id (1 + fuel) scenarioFile 0 3 ["id", "id"] =
        ⟨[["id", "id"], ["0@id", "3@id"], ["1@id", "4@id"], ["2@id", "5@id"]],
          [.ReadColumnByPath "Schema\x01id" 3, .ReadColumnByPath "Schema\x01id" 3],
          .returned⟩) ∧
      (∀ fuel, readParquet (tableDecoder String) id (1 + fuel) scenarioFile 20 5 ["id", "id"] =
        ⟨[["id", "id"]],
          [.SkipRows 20, .ReadColumnByPath "Schema\x01id" 5, .ReadColumnByPath "Schema\x01id" 5],
          .indexPanic⟩) := by
  refine ⟨by decide, ?_, ?_⟩
  · intro fuel
    rw [readParquet_more_fuel (tableDecoder String) id 1 fuel scenarioFile 0 3 ["id", "id"]
      (by decide)]
    decide
  · intro fuel
    rw [readParquet_more_fuel (tableDecoder String) id 1 fuel scenarioFile 20 5 ["id", "id"]
      (by decide)]
    decide

/-- Claim C7 as stated fails: when the column read of a 5-row batch returns 3
values, the run indexes into the short buffer, writes the records of rows 0..2
and ends in an index panic, not in a short-read error; when it returns 7 values
the run goes on and builds the 5 records from the longer buffer. -/
theorem short_read_is_not_detected :
    (∀ fuel, readParquet (fixedCountDecoder 3) toString (1 + fuel) () 0 5 ["id"] =
        ⟨[["id"], ["0"], ["1"], ["2"]], [.ReadColumnByPath "Schema\x01id" 5], .indexPanic⟩) ∧
      (∀ fuel, readParquet (fixedCountDecoder 7) toString (1 + fuel) () 0 5 ["id"] =
        ⟨[["id"], ["0"], ["1"], ["2"], ["3"], ["4"]], [.ReadColumnByPath "Schema\x01id" 5],
          .returned⟩) := by
  constructor
  · intro fuel
    rw [readParquet_more_fuel (fixedCountDecoder 3) toString 1 fuel () 0 5 ["id"] (by decide)]
    decide
  · intro fuel
    rw [readParquet_more_fuel (fixedCountDecoder 7) toString 1 fuel () 0 5 ["id"] (by decide)]
    decide

/-! ## Machine arithmetic inside the row window -/

theorem wrapInt_of_isInt (x : Int) (h : IsInt x) : wrapInt x = x := by
  unfold IsInt at h
  unfold wrapInt
  omega

theorem addInt_of_isInt (a b : Int) (h : IsInt (a + b)) : addInt a b = a + b :=
  wrapInt_of_isInt _ h

theorem subInt_of_isInt (a b : Int) (h : IsInt (a - b)) : subInt a b = a - b :=
  wrapInt_of_isInt _ h

/-- Lines 82-84 without overflow: the clamped size is `min size (numRows - offset)`. -/
theorem clampSize_eq_min (offset size numRows : Int) (h0 : 0 ≤ offset) (hlt : offset < numRows)
    (hrows : numRows < 2 ^ 63) (hsize : IsInt size) (hsum : offset + size < 2 ^ 63) :
    clampSize offset size numRows = min size (numRows - offset) := by
  unfold IsInt at hsize
  unfold clampSize
  rw [addInt_of_isInt offset size (by unfold IsInt; omega),
    subInt_of_isInt numRows offset (by unfold IsInt; omega)]
  split <;> omega

theorem batchSizeOf_eq_min (size : Int) : batchSizeOf size = min 100 size := by
  unfold batchSizeOf
  split <;> omega

theorem window_end_arith (offset size : Int) (h0 : 0 ≤ offset) (hsz : -2 ^ 63 ≤ size)
    (hend : offset + size + 100 ≤ 2 ^ 63) : addInt offset size = offset + size :=
  addInt_of_isInt _ _ (by unfold IsInt; omega)

/-- The loop head at a start `i` inside the window, in mathematical integers:
the window ends at `offset + size`, and no addition or subtraction wraps. -/
theorem loop_head_arith (offset size i : Int) (h0 : 0 ≤ offset) (hi : offset ≤ i)
    (hend : offset + size + 100 ≤ 2 ^ 63) (hlt : i < offset + size) :
    toReadAt offset size (min 100 size) i = min (offset + size - i) (min 100 size) ∧
      addInt i (min 100 size) = i + min 100 size ∧ 1 ≤ min 100 size := by
  have e1 : addInt offset size = offset + size :=
    addInt_of_isInt _ _ (by unfold IsInt; omega)
  have e2 : subInt (offset + size) i = offset + size - i :=
    subInt_of_isInt _ _ (by unfold IsInt; omega)
  refine ⟨?_, addInt_of_isInt _ _ (by unfold IsInt; omega), by omega⟩
  unfold toReadAt
  rw [e1, e2]
  split <;> omega

/-! ## The batch plan -/

/-- The loop of lines 99-103 from a start `i` inside the window: it returns, and
the batches it records from `i` on tile `[i, offset+size)`. -/
theorem plan_from (offset size : Int) (h0 : 0 ≤ offset) (hsz : -2 ^ 63 ≤ size)
    (hend : offset + size + 100 ≤ 2 ^ 63) (fuel : Nat) (i : Int) (acc : List (Int × Int))
    (hi : offset ≤ i) (hfuel : (offset + size - i).toNat ≤ fuel) :
    ∃ plan, forBatches offset size (min 100 size)
        (fun i toRead plan => (plan ++ [(i, toRead)], none)) fuel i acc = (acc ++ plan, .returned) ∧
      (∀ b, plan.head? = some b → b.1 = i) ∧
      plan.Chain' (fun a b => b.1 = a.1 + a.2 ∧ a.2 = min 100 size) ∧
      (∀ b ∈ plan, 1 ≤ b.2 ∧ b.2 ≤ min 100 size ∧ i ≤ b.1) ∧
      (∀ b, plan.getLast? = some b → b.1 + b.2 = offset + size) ∧
      plan.Pairwise (fun a b => a.1 + a.2 ≤ b.1) ∧
      (∀ r, (∃ b ∈ plan, b.1 ≤ r ∧ r < b.1 + b.2) ↔ i ≤ r ∧ r < offset + size) ∧
      (plan = [] ↔ offset + size ≤ i) := by
  have hstop := window_end_arith offset size h0 hsz hend
  induction fuel generalizing i acc with
  | zero =>
    have hge : offset + size ≤ i := by omega
    refine ⟨[], ?_, by simp, List.chain'_nil, by simp, by simp, List.Pairwise.nil, ?_, by simp [hge]⟩
    · rw [forBatches_done _ _ _ _ _ _ _ (by rw [hstop]; omega)]
      simp
    · intro r
      simp
      omega
  | succ fuel ih =>
    by_cases hlt : i < offset + size
    · obtain ⟨e1, e2, hb1⟩ := loop_head_arith offset size i h0 hi hend hlt
      obtain ⟨rest, hrun, hhead, hchain, hmem, hlast, hpair, hcover, hnil⟩ :=
        ih (i + min 100 size) (acc ++ [(i, min (offset + size - i) (min 100 size))])
          (by omega) (by omega)
      refine ⟨(i, min (offset + size - i) (min 100 size)) :: rest, ?_, ?_, ?_, ?_, ?_, ?_, ?_, ?_⟩
      · rw [forBatches_step _ _ _ _ _ _ _ (by rw [hstop]; exact hlt)]
        simp only [e1, e2]
        rw [hrun]
        simp
      · intro b hb
        simp at hb
        rw [← hb]
      · rw [List.chain'_cons']
        refine ⟨?_, hchain⟩
        intro y hy
        have hy1 := hhead y hy
        have hne : rest ≠ [] := by
          intro h
          rw [h] at hy
          simp at hy
        have : ¬ offset + size ≤ i + min 100 size := fun h => hne (hnil.2 h)
        simp only
        omega
      · intro b hb
        rcases List.mem_cons.1 hb with h | h
        · rw [h]
          simp only
          omega
        · have := hmem b h
          omega
      · intro b hb
        cases rest with
        | nil =>
          simp at hb
          rw [← hb]
          have := hnil.1 rfl
          simp only
          omega
        | cons c rest2 =>
          rw [List.getLast?_cons_cons] at hb
          exact hlast b hb
      · rw [List.pairwise_cons]
        refine ⟨?_, hpair⟩
        intro b hb
        have := hmem b hb
        simp only
        omega
      · intro r
        constructor
        · rintro ⟨b, hb, h1, h2⟩
          rcases List.mem_cons.1 hb with h | h
          · rw [h] at h1 h2
            simp only at h1 h2
            omega
          · have := (hcover r).1 ⟨b, h, h1, h2⟩
            omega
        · rintro ⟨h1, h2⟩
          by_cases hr : r < i + min (offset + size - i) (min 100 size)
          · exact ⟨_, List.mem_cons_self _ _, h1, hr⟩
          · obtain ⟨b, hb, hb1, hb2⟩ := (hcover r).2 ⟨by omega, h2⟩
            exact ⟨b, List.mem_cons_of_mem _ hb, hb1, hb2⟩
      · simp
        omega
    · have hge : offset + size ≤ i := by omega
      refine ⟨[], ?_, by simp, List.chain'_nil, by simp, by simp, List.Pairwise.nil, ?_,
        by simp [hge]⟩
      · rw [forBatches_done _ _ _ _ _ _ _ (by rw [hstop]; omega)]
        simp
      · intro r
        simp
        omega

/-- Claim C2, for files of at most 2^63 - 100 rows: for `0 <= offset <
total_rows` and `offset+size` not overflowing, the batch loop returns, and its
batches `(start, length)` are: first start `offset`; each later start is the
previous start plus the previous length; every length is between 1 and
`effective_batch = min(100, effective_size)`; every batch but the last has
length `effective_batch`; the last ends at `min(offset+size, total_rows)`; the
batches do not overlap and a row is in one of them exactly when it is in
`[offset, min(offset+size, total_rows))`; the plan is empty when `size <= 0`. -/
theorem batch_plan_partition (offset size numRows : Int) (fuel : Nat) (h0 : 0 ≤ offset)
    (hlt : offset < numRows) (hsize : IsInt size) (hsum : offset + size < 2 ^ 63)
    (hrows : numRows + 100 ≤ 2 ^ 63) (hfuel : size.toNat ≤ fuel) :
    ∃ plan, batchPlan fuel offset size numRows = (plan, .returned) ∧
      (∀ b, plan.head? = some b → b.1 = offset) ∧
      plan.Chain' (fun a b => b.1 = a.1 + a.2 ∧ a.2 = min 100 (min size (numRows - offset))) ∧
      (∀ b ∈ plan, 1 ≤ b.2 ∧ b.2 ≤ min 100 (min size (numRows - offset))) ∧
      (∀ b, plan.getLast? = some b → b.1 + b.2 = min (offset + size) numRows) ∧
      plan.Pairwise (fun a b => a.1 + a.2 ≤ b.1) ∧
      (∀ r, (∃ b ∈ plan, b.1 ≤ r ∧ r < b.1 + b.2) ↔
        offset ≤ r ∧ r < min (offset + size) numRows) ∧
      (size ≤ 0 → plan = []) := by
  have hs := hsize
  unfold IsInt at hs
  have hstop : offset + min size (numRows - offset) = min (offset + size) numRows := by omega
  obtain ⟨plan, hrun, hhead, hchain, hmem, hlast, hpair, hcover, hnil⟩ :=
    plan_from offset (min size (numRows - offset)) h0 (by omega) (by omega) fuel offset []
      (le_refl _) (by omega)
  refine ⟨plan, ?_, hhead, hchain, fun b hb => ⟨(hmem b hb).1, (hmem b hb).2.1⟩, ?_, hpair, ?_, ?_⟩
  · unfold batchPlan
    rw [clampSize_eq_min offset size numRows h0 hlt (by omega) hsize hsum, batchSizeOf_eq_min,
      hrun]
    simp
  · intro b hb
    rw [← hstop]
    exact hlast b hb
  · intro r
    rw [← hstop]
    exact hcover r
  · intro hle
    exact hnil.2 (by omega)

/-- Claim C2 on the 25-row scenario file at offset 20, size 10. -/
theorem batch_plan_partition_witness :
    (0 : Int) ≤ 20 ∧ (20 : Int) < 25 ∧ IsInt 10 ∧
      ∃ plan, batchPlan 10 20 10 25 = (plan, .returned) ∧
        (∀ b, plan.head? = some b → b.1 = 20) ∧
        plan.Chain' (fun a b => b.1 = a.1 + a.2 ∧ a.2 = min 100 (min 10 (25 - 20))) ∧
        (∀ b ∈ plan, 1 ≤ b.2 ∧ b.2 ≤ min 100 (min 10 (25 - 20))) ∧
        (∀ b, plan.getLast? = some b → b.1 + b.2 = min (20 + 10) 25) ∧
        plan.Pairwise (fun a b => a.1 + a.2 ≤ b.1) ∧
        (∀ r, (∃ b ∈ plan, b.1 ≤ r ∧ r < b.1 + b.2) ↔ 20 ≤ r ∧ r < min (20 + 10) 25) ∧
        ((10 : Int) ≤ 0 → plan = []) :=
  ⟨by decide, by decide, by decide,
    batch_plan_partition 20 10 25 10 (by decide) (by decide) (by decide) (by decide) (by decide)
      (by decide)⟩

/-- The batches a run of the recording loop ends with extend the ones it
started with. -/
theorem plan_extends (offset size batchSize : Int) (fuel : Nat) (i : Int)
    (acc : List (Int × Int)) :
    ∃ more, (forBatches offset size batchSize
      (fun i toRead plan => (plan ++ [(i, toRead)], none)) fuel i acc).1 = acc ++ more :=
  forBatches_rel (fun a b : List (Int × Int) => ∃ w, b = a ++ w) (fun s => ⟨[], by simp⟩)
    (fun a b c ⟨w1, h1⟩ ⟨w2, h2⟩ => ⟨w1 ++ w2, by rw [h2, h1]; simp⟩) offset size batchSize _
    (fun i toRead s => ⟨[(i, toRead)], rfl⟩) fuel i acc

/-- Claim C2 as stated fails for a file of 2^63 - 1 rows at offset 2^63 - 200,
size 150 (`offset+size` does not overflow): after the batches of 100 and 50 rows
the counter `i += batchSize` wraps to -2^63, the loop goes on, and the third
batch has start -2^63 and length -50. -/
theorem batch_plan_wraps_near_int_max :
    (0 : Int) ≤ 9223372036854775608 ∧ (9223372036854775608 : Int) < 9223372036854775807 ∧
      IsInt 150 ∧ (9223372036854775608 : Int) + 150 < 2 ^ 63 ∧
      ∀ fuel, ∃ more, (batchPlan (3 + fuel) 9223372036854775608 150 9223372036854775807).1 =
        (9223372036854775608, 100) :: (9223372036854775708, 50) ::
          (-9223372036854775808, -50) :: more := by
  refine ⟨by decide, by decide, by decide, by decide, ?_⟩
  intro fuel
  have e : 3 + fuel = fuel + 1 + 1 + 1 := by omega
  have hc : clampSize 9223372036854775608 150 9223372036854775807 = 150 := by decide
  have hb : batchSizeOf 150 = 100 := by decide
  have t1 : toReadAt 9223372036854775608 150 100 9223372036854775608 = 100 := by decide
  have a1 : addInt 9223372036854775608 100 = 9223372036854775708 := by decide
  have t2 : toReadAt 9223372036854775608 150 100 9223372036854775708 = 50 := by decide
  have a2 : addInt 9223372036854775708 100 = -9223372036854775808 := by decide
  have t3 : toReadAt 9223372036854775608 150 100 (-9223372036854775808) = -50 := by decide
  unfold batchPlan
  rw [e, hc, hb, forBatches_step _ _ _ _ _ _ _ (by decide)]
  simp only [t1, a1]
  rw [forBatches_step _ _ _ _ _ _ _ (by decide)]
  simp only [t2, a2]
  rw [forBatches_step _ _ _ _ _ _ _ (by decide)]
  simp only [t3]
  obtain ⟨more, hmore⟩ := plan_extends 9223372036854775608 150 100 fuel
    (addInt (-9223372036854775808) 100)
    ([] ++ [(9223372036854775608, 100)] ++ [(9223372036854775708, 50)] ++
      [(-9223372036854775808, -50)])
  exact ⟨more, by rw [hmore]; simp⟩

/-! ## The batches the loop goes through, for any body -/

/-- Whatever the body does, the batches `(i, toRead)` at which the loop runs it
are an initial segment of the batches the recording loop of `batchPlan` lists,
and all of them when the body never ends the run.  The body is instrumented
here to log the batch it is run at; state and exit are those of the loop run
without the log. -/
theorem forBatches_visits {S : Type} (offset size batchSize : Int)
    (body : Int → Int → S → S × Option Exit) (fuel : Nat) (i : Int) (s : S)
    (acc : List (Int × Int)) :
    ∃ visited later,
      forBatches offset size batchSize
          (fun i toRead (x : S × List (Int × Int)) =>
            (((body i toRead x.1).1, x.2 ++ [(i, toRead)]), (body i toRead x.1).2))
          fuel i (s, acc) =
        (((forBatches offset size batchSize body fuel i s).1, acc ++ visited),
          (forBatches offset size batchSize body fuel i s).2) ∧
      (forBatches offset size batchSize (fun i toRead plan => (plan ++ [(i, toRead)], none))
          fuel i acc).1 = acc ++ visited ++ later ∧
      ((∀ j toRead x, (body j toRead x).2 = none) → later = []) := by
  induction fuel generalizing i s acc with
  | zero =>
    refine ⟨[], [], ?_, ?_, fun _ => rfl⟩
    · unfold forBatches
      split <;> simp
    · unfold forBatches
      split <;> simp
  | succ fuel ih =>
    by_cases hlt : i < addInt offset size
    · rw [forBatches_step _ _ _ _ _ _ _ hlt, forBatches_step _ _ _ _ _ _ _ hlt,
        forBatches_step _ _ _ _ _ _ _ hlt]
      generalize hb : body i (toReadAt offset size batchSize i) s = r
      obtain ⟨s1, _ | e⟩ := r
      · obtain ⟨visited, later, h1, h2, h3⟩ :=
          ih (addInt i batchSize) s1 (acc ++ [(i, toReadAt offset size batchSize i)])
        refine ⟨(i, toReadAt offset size batchSize i) :: visited, later, ?_, ?_, h3⟩
        · simp only [hb]
          rw [h1]
          simp
        · simp only
          rw [h2]
          simp
      · obtain ⟨more, hmore⟩ := plan_extends offset size batchSize fuel (addInt i batchSize)
          (acc ++ [(i, toReadAt offset size batchSize i)])
        refine ⟨[(i, toReadAt offset size batchSize i)], more, ?_, ?_, ?_⟩
        · simp only [hb]
        · simp only
          rw [hmore]
        · intro hnone
          have := hnone i (toReadAt offset size batchSize i) s
          rw [hb] at this
          cases this
    · refine ⟨[], [], ?_, ?_, fun _ => rfl⟩
      · rw [forBatches_done _ _ _ _ _ _ _ hlt, forBatches_done _ _ _ _ _ _ _ hlt]
        simp
      · rw [forBatches_done _ _ _ _ _ _ _ hlt]
        simp

/-- The plan of a 1000-row file at offset 0, size 250. -/
theorem batchPlan_three_batches :
    batchPlan 3 0 250 1000 = ([(0, 100), (100, 100), (200, 50)], .returned) := by
  decide

/-! ## Building the records of a batch -/

theorem writeRows_of_records {σ α : Type} (fmt : α → String) (columnData : List (List α))
    (record : Nat → List String) (rows : List Nat) (st : St σ)
    (h : ∀ row ∈ rows, buildRecord fmt columnData row = some (record row)) :
    writeRows fmt columnData rows st =
      ({ st with records := st.records ++ rows.map record }, none) := by
  induction rows generalizing st with
  | nil => simp [writeRows]
  | cons row rest ih =>
    unfold writeRows
    rw [h row (by simp)]
    simp only
    rw [ih _ (fun r hr => h r (by simp [hr]))]
    simp

/-- When no buffer is shorter than `row + 1`, the record of `row` is built, and
its fields are the renderings of the `row`-th values of the buffers, in order. -/
theorem buildRecord_of_long {α : Type} (fmt : α → String) (columnData : List (List α))
    (row : Nat) (h : ∀ colValues ∈ columnData, row < colValues.length) :
    ∃ record, buildRecord fmt columnData row = some record ∧
      record.map some = columnData.map (fun colValues => fieldAt fmt colValues row) := by
  induction columnData with
  | nil => exact ⟨[], rfl, rfl⟩
  | cons colValues rest ih =>
    obtain ⟨record, h1, h2⟩ := ih (fun cv hcv => h cv (by simp [hcv]))
    have hlen : row < colValues.length := h colValues (by simp)
    have hf : fieldAt fmt colValues row = some (fmt colValues[row]) := by
      simp [fieldAt, List.getElem?_eq_getElem hlen]
    refine ⟨fmt colValues[row] :: record, ?_, ?_⟩
    · unfold buildRecord
      rw [hf, h1]
    · simp [hf, h2]

/-! ## The table decoder -/

theorem table_read {α : Type} (t : Table α) (path : String) (num : Int) (h : path ∈ t.schema)
    (hk : t.cursor path + num.toNat ≤ t.numRows) :
    (tableDecoder α).ReadColumnByPath t path num =
      .ok ((List.range num.toNat).map (fun r => t.value path (t.cursor path + r)),
        { t with cursor := fun p => if p = path then t.cursor path + num.toNat else t.cursor p }) := by
  have e : min num.toNat (t.numRows - t.cursor path) = num.toNat := by omega
  simp only [tableDecoder, Table.ReadColumnByPath, h, if_true, e]

/-- Lines 113-122 on the table: when the cursors of the selected, pairwise
distinct columns all stand at row `k` and `toRead` more rows exist, every buffer
holds the values of its column at rows `k .. k+toRead-1`, and the cursors of the
selected columns stand at `k + toRead` afterwards. -/
theorem readColumns_table {α : Type} (toRead : Int) (k : Nat) (sel : List String)
    (hnodup : sel.Nodup) (st : St (Table α)) (acc : List (List α))
    (hex : ∀ c ∈ sel, columnPath c ∈ st.pr.schema)
    (hcur : ∀ c ∈ sel, st.pr.cursor (columnPath c) = k)
    (hrows : k + toRead.toNat ≤ st.pr.numRows) :
    ∃ st1, readColumns (tableDecoder α) toRead sel st acc =
        (st1, .ok (acc ++ sel.map (fun c =>
          (List.range toRead.toNat).map (fun r => st.pr.value (columnPath c) (k + r))))) ∧
      st1.records = st.records ∧ st1.pr.schema = st.pr.schema ∧
      st1.pr.numRows = st.pr.numRows ∧ st1.pr.value = st.pr.value ∧
      (∀ c ∈ sel, st1.pr.cursor (columnPath c) = k + toRead.toNat) ∧
      (∀ p, (∀ c ∈ sel, columnPath c ≠ p) → st1.pr.cursor p = st.pr.cursor p) := by
  induction sel generalizing st acc with
  | nil => exact ⟨st, by simp [readColumns], rfl, rfl, rfl, rfl, by simp, fun _ _ => rfl⟩
  | cons col rest ih =>
    have hcol : st.pr.cursor (columnPath col) = k := hcur col (by simp)
    have hnd := List.nodup_cons.1 hnodup
    obtain ⟨st1, hrun, hrec, hsch, hnum, hval, hc1, hframe⟩ :=
      ih hnd.2
        { st with
          pr := { st.pr with cursor := fun p =>
            if p = columnPath col then st.pr.cursor (columnPath col) + toRead.toNat
            else st.pr.cursor p },
          calls := st.calls ++ [.ReadColumnByPath (columnPath col) toRead] }
        (acc ++ [(List.range toRead.toNat).map
          (fun r => st.pr.value (columnPath col) (st.pr.cursor (columnPath col) + r))])
        (fun c hc => hex c (by simp [hc]))
        (fun c hc => by
          have hne : columnPath c ≠ columnPath col := fun h =>
            hnd.1 (columnPath_injective h ▸ hc)
          simp only [hne, if_false]
          exact hcur c (by simp [hc]))
        hrows
    refine ⟨st1, ?_, hrec, hsch, hnum, hval, ?_, ?_⟩
    · unfold readColumns
      rw [table_read st.pr (columnPath col) toRead (hex col (by simp)) (by rw [hcol]; exact hrows)]
      simp only
      rw [hrun, hcol]
      simp
    · intro c hc
      rcases List.mem_cons.1 hc with h | h
      · rw [h, hframe (columnPath col) (fun c2 hc2 hEq => hnd.1 (columnPath_injective hEq ▸ hc2))]
        simp [hcol]
      · exact hc1 c h
    · intro p hp
      rw [hframe p (fun c hc => hp c (by simp [hc]))]
      have hne : p ≠ columnPath col := fun h => hp col (by simp) h.symm
      simp [hne]

/-- Line 128 on the buffers of the table: the record of row `row` of a batch that
starts at file row `k`. -/
theorem buildRecord_table {α : Type} (fmt : α → String) (value : String → Nat → α) (k len : Nat)
    (sel : List String) (row : Nat) (hrow : row < len) :
    buildRecord fmt (sel.map (fun c => (List.range len).map (fun r => value (columnPath c) (k + r))))
        row =
      some (sel.map (fun c => fmt (value (columnPath c) (k + row)))) := by
  induction sel with
  | nil => rfl
  | cons col rest ih =>
    simp only [List.map_cons]
    unfold buildRecord
    have hf : fieldAt fmt ((List.range len).map (fun r => value (columnPath col) (k + r))) row =
        some (fmt (value (columnPath col) (k + row))) := by
      simp [fieldAt, List.getElem?_map, List.getElem?_range hrow]
    rw [hf, ih]

theorem skipStep_table {α : Type} (offset i : Int) (st : St (Table α)) :
    ∃ st1, skipStep (tableDecoder α) offset i st = (st1, none) ∧ st1.records = st.records ∧
      st1.pr.schema = st.pr.schema ∧ st1.pr.numRows = st.pr.numRows ∧
      st1.pr.value = st.pr.value ∧
      ∀ p, st1.pr.cursor p =
        st.pr.cursor p + (if i = offset ∧ offset > 0 then offset.toNat else 0) := by
  unfold skipStep
  by_cases h : i = offset ∧ offset > 0
  · simp only [h, and_self, if_true, tableDecoder, Table.SkipRows]
    exact ⟨_, rfl, rfl, rfl, rfl, rfl, fun p => rfl⟩
  · simp only [h, if_false]
    exact ⟨st, rfl, rfl, rfl, rfl, rfl, fun p => rfl⟩

/-- Lines 105-131 on the table, for a batch `(i, toRead)` inside the file: the
batch ends normally, it appends the records of file rows `i .. i+toRead-1`, and
it leaves the cursors of the selected columns at `i + toRead`. -/
theorem execBatch_table {α : Type} (fmt : α → String) (sel : List String) (hnodup : sel.Nodup)
    (offset i toRead : Int) (st : St (Table α)) (h0 : 0 ≤ offset)
    (hex : ∀ c ∈ sel, columnPath c ∈ st.pr.schema)
    (hcur : ∀ c ∈ sel, st.pr.cursor (columnPath c) = if i = offset then 0 else i.toNat)
    (hrows : i.toNat + toRead.toNat ≤ st.pr.numRows) :
    ∃ st1, execBatch (tableDecoder α) fmt offset sel i toRead st = (st1, none) ∧
      st1.records = st.records ++ (List.range toRead.toNat).map
        (fun row => sel.map (fun c => fmt (st.pr.value (columnPath c) (i.toNat + row)))) ∧
      st1.pr.schema = st.pr.schema ∧ st1.pr.numRows = st.pr.numRows ∧
      st1.pr.value = st.pr.value ∧
      ∀ c ∈ sel, st1.pr.cursor (columnPath c) = i.toNat + toRead.toNat := by
  obtain ⟨st1, hskip, hrec1, hsch1, hnum1, hval1, hcur1⟩ := skipStep_table offset i st
  have hat : ∀ c ∈ sel, st1.pr.cursor (columnPath c) = i.toNat := by
    intro c hc
    rw [hcur1, hcur c hc]
    by_cases hio : i = offset
    · by_cases hpos : offset > 0
      · simp [hio, hpos]
      · have : offset = 0 := by omega
        simp [hio, this]
    · simp [hio]
  obtain ⟨st2, hread, hrec2, hsch2, hnum2, hval2, hcur2, _⟩ :=
    readColumns_table toRead i.toNat sel hnodup st1 []
      (fun c hc => by rw [hsch1]; exact hex c hc) hat (by rw [hnum1]; exact hrows)
  refine ⟨{ st2 with records := (st2.records ++ (List.range toRead.toNat).map
      (fun row => sel.map (fun c => fmt (st.pr.value (columnPath c) (i.toNat + row))))) },
    ?_, ?_, ?_, ?_, ?_, ?_⟩
  · unfold execBatch
    rw [hskip]
    simp only
    rw [hread]
    simp only [List.nil_append]
    rw [hval1]
    exact writeRows_of_records fmt _ _ _ st2 (fun row hrow =>
      buildRecord_table fmt st.pr.value i.toNat toRead.toNat sel row (List.mem_range.1 hrow))
  · simp only
    rw [hrec2, hrec1]
  · exact hsch2.trans hsch1
  · exact hnum2.trans hnum1
  · exact hval2.trans hval1
  · exact hcur2

/-- The batch loop on the table from a start `i` inside the window: it returns,
having appended the records of file rows `i .. offset+size-1` in order. -/
theorem export_loop {α : Type} (fmt : α → String) (sel : List String) (hnodup : sel.Nodup)
    (offset size : Int) (h0 : 0 ≤ offset) (hsz : -2 ^ 63 ≤ size)
    (hend : offset + size + 100 ≤ 2 ^ 63) (fuel : Nat) (i : Int) (st : St (Table α))
    (hi : offset ≤ i) (hfuel : (offset + size - i).toNat ≤ fuel)
    (hex : ∀ c ∈ sel, columnPath c ∈ st.pr.schema) (hn : offset + size ≤ st.pr.numRows)
    (hcur : i < offset + size →
      ∀ c ∈ sel, st.pr.cursor (columnPath c) = if i = offset then 0 else i.toNat) :
    ∃ st1, forBatches offset size (min 100 size) (execBatch (tableDecoder α) fmt offset sel)
        fuel i st = (st1, .returned) ∧
      st1.records = st.records ++ (List.range (offset + size - i).toNat).map
        (fun k => sel.map (fun c => fmt (st.pr.value (columnPath c) (i.toNat + k)))) := by
  have hstop := window_end_arith offset size h0 hsz hend
  induction fuel generalizing i st with
  | zero =>
    have hz : (offset + size - i).toNat = 0 := by omega
    refine ⟨st, forBatches_done _ _ _ _ _ _ _ (by rw [hstop]; omega), ?_⟩
    rw [hz]
    simp
  | succ fuel ih =>
    by_cases hlt : i < offset + size
    · obtain ⟨e1, e2, hb1⟩ := loop_head_arith offset size i h0 hi hend hlt
      obtain ⟨st1, hbatch, hrec1, hsch1, hnum1, hval1, hcur1⟩ :=
        execBatch_table fmt sel hnodup offset i (min (offset + size - i) (min 100 size)) st h0
          hex (hcur hlt) (by omega)
      obtain ⟨st2, hloop, hrec2⟩ := ih (i + min 100 size) st1 (by omega) (by omega)
        (fun c hc => by rw [hsch1]; exact hex c hc) (by rw [hnum1]; exact hn)
        (fun hlt2 c hc => by
          rw [hcur1 c hc]
          have hne : i + min 100 size ≠ offset := by omega
          simp only [hne, if_false]
          omega)
      refine ⟨st2, ?_, ?_⟩
      · rw [forBatches_step _ _ _ _ _ _ _ (by rw [hstop]; exact hlt)]
        simp only [e1, e2]
        rw [hbatch]
        exact hloop
      · rw [hrec2, hrec1, hval1, List.append_assoc]
        congr 1
        by_cases hfull : min 100 size ≤ offset + size - i
        · have ea : (min (offset + size - i) (min 100 size)).toNat = (min 100 size).toNat := by
            omega
          have et : (offset + size - i).toNat =
              (min 100 size).toNat + (offset + size - (i + min 100 size)).toNat := by omega
          have ei : (i + min 100 size).toNat = i.toNat + (min 100 size).toNat := by omega
          rw [ea, et, ei, List.range_add, List.map_append, List.map_map]
          congr 1
          apply List.map_congr_left
          intro k _
          simp [Nat.add_assoc]
        · have ea : (min (offset + size - i) (min 100 size)).toNat = (offset + size - i).toNat := by
            omega
          have er : (offset + size - (i + min 100 size)).toNat = 0 := by omega
          rw [ea, er]
          simp
    · have hz : (offset + size - i).toNat = 0 := by omega
      refine ⟨st, forBatches_done _ _ _ _ _ _ _ (by rw [hstop]; omega), ?_⟩
      rw [hz]
      simp

/-! ## End-to-end export -/

/-- Claim C1, for files of at most 2^63 - 100 rows and with the selected columns
in place of the requested ones (the requested names, or all stripped schema
names in schema order when the request is empty): if the selected names are
pairwise distinct and the qualified path of each is a schema identifier, then
for `0 <= offset < total_rows`, `size >= 0` and `offset+size` not overflowing,
the run on the table returns having handed to the writer exactly the header (the
selected names in order) and then `e = min(size, total_rows - offset)` data
records, field `j` of data record `k` being the rendering of the value of
selected column `j` at file row `offset + k`. -/
theorem export_correct {α : Type} (schema : List String) (numRows : Nat)
    (value : String → Nat → α) (fmt : α → String) (offset size : Int) (columns : List String)
    (fuel : Nat)
    (hnodup : (if columns = [] then schema.map cleanColumnName else columns).Nodup)
    (hex : ∀ c ∈ (if columns = [] then schema.map cleanColumnName else columns),
      columnPath c ∈ schema)
    (h0 : 0 ≤ offset) (hlt : offset < numRows) (hs : 0 ≤ size) (hsum : offset + size < 2 ^ 63)
    (hrows : (numRows : Int) + 100 ≤ 2 ^ 63) (hfuel : size.toNat ≤ fuel) :
    (readParquet (tableDecoder α) fmt fuel (Table.fresh schema numRows value) offset size
        columns).exit = .returned ∧
      (readParquet (tableDecoder α) fmt fuel (Table.fresh schema numRows value) offset size
        columns).records =
        (if columns = [] then schema.map cleanColumnName else columns) ::
          (List.range (min size (numRows - offset)).toNat).map (fun k =>
            (if columns = [] then schema.map cleanColumnName else columns).map
              (fun c => fmt (value (columnPath c) (offset.toNat + k)))) := by
  generalize hsel : (if columns = [] then schema.map cleanColumnName else columns) = sel
    at hnodup hex ⊢
  have hres : resolveColumns ((tableDecoder α).ValueColumns (Table.fresh schema numRows value))
      columns = .ok sel := by
    show resolveColumns schema columns = .ok sel
    by_cases hc : columns = []
    · rw [if_pos hc] at hsel
      rw [hc, resolveColumns_nil, hsel]
    · rw [if_neg hc] at hsel
      rw [← hsel]
      exact resolveColumns_ok_of_mem schema columns hc
        (fun c hcm => mem_available_of_path_mem (hex c (hsel ▸ hcm)))
  have hnot : ¬ offset ≥ (tableDecoder α).GetNumRows (Table.fresh schema numRows value) := by
    show ¬ offset ≥ (numRows : Int)
    omega
  have hclamp : clampSize offset size
      ((tableDecoder α).GetNumRows (Table.fresh schema numRows value)) =
      min size (numRows - offset) :=
    clampSize_eq_min offset size numRows h0 hlt (by omega) (by unfold IsInt; omega) hsum
  obtain ⟨st1, hloop, hrec⟩ :=
    export_loop fmt sel hnodup offset (min size (numRows - offset)) h0 (by omega) (by omega) fuel
      offset ⟨Table.fresh schema numRows value, [sel], []⟩ (le_refl _) (by omega) hex
      (by show offset + min size (↑numRows - offset) ≤ (numRows : Int); omega)
      (fun _ c _ => by simp [Table.fresh])
  unfold readParquet
  rw [hres]
  simp only [hnot, if_false, hclamp, batchSizeOf_eq_min, hloop, hrec]
  refine ⟨trivial, ?_⟩
  have e : offset + min size (↑numRows - offset) - offset = min size (↑numRows - offset) := by
    omega
  rw [e]
  rfl

/-- Claim C1 on the scenario file: `--offset 0 --size 10 --columns id,score`
(scenario B) gives the header `id,score` and the ten records of rows 0..9. -/
theorem export_correct_witness :
    (0 : Int) ≤ 0 ∧ (0 : Int) < (25 : Nat) ∧ ["id", "score"].Nodup ∧
      (readParquet (tableDecoder String) id 10
        (Table.fresh ["Schema\x01id", "Schema\x01name", "Schema\x01score"] 25
          (fun path row => toString row ++ "@" ++ cleanColumnName path))
        0 10 ["id", "score"]).exit = .returned ∧
      (readParquet (tableDecoder String) id 10
        (Table.fresh ["Schema\x01id", "Schema\x01name", "Schema\x01score"] 25
          (fun path row => toString row ++ "@" ++ cleanColumnName path))
        0 10 ["id", "score"]).records =
        [["id", "score"], ["0@id", "0@score"], ["1@id", "1@score"], ["2@id", "2@score"],
          ["3@id", "3@score"], ["4@id", "4@score"], ["5@id", "5@score"], ["6@id", "6@score"],
          ["7@id", "7@score"], ["8@id", "8@score"], ["9@id", "9@score"]] :=
  ⟨by decide, by decide, by decide,
    (export_correct ["Schema\x01id", "Schema\x01name", "Schema\x01score"] 25
      (fun path row => toString row ++ "@" ++ cleanColumnName path) id 0 10 ["id", "score"] 10
      (by decide) (by decide) (by decide) (by decide) (by decide) (by decide) (by decide)
      (by decide)).1,
    (export_correct ["Schema\x01id", "Schema\x01name", "Schema\x01score"] 25
      (fun path row => toString row ++ "@" ++ cleanColumnName path) id 0 10 ["id", "score"] 10
      (by decide) (by decide) (by decide) (by decide) (by decide) (by decide) (by decide)
      (by decide)).2.trans (by decide)⟩

/-! ## Short buffers -/

theorem buildRecord_of_short {α : Type} (fmt : α → String) (columnData : List (List α))
    (row : Nat) (h : ∃ colValues ∈ columnData, colValues.length ≤ row) :
    buildRecord fmt columnData row = none := by
  induction columnData with
  | nil => simp at h
  | cons cv rest ih =>
    unfold buildRecord
    obtain ⟨c, hc, hlen⟩ := h
    rcases List.mem_cons.1 hc with h1 | h1
    · have hf : fieldAt fmt cv row = none := by
        rw [← h1]
        simp [fieldAt, List.getElem?_eq_none hlen]
      rw [hf]
    · rw [ih ⟨c, h1, hlen⟩]
      split <;> rfl

theorem writeRows_panics {σ α : Type} (fmt : α → String) (columnData : List (List α))
    (rows : List Nat) (st : St σ) (h : ∃ row ∈ rows, buildRecord fmt columnData row = none) :
    (writeRows fmt columnData rows st).2 = some .indexPanic := by
  induction rows generalizing st with
  | nil => simp at h
  | cons row rest ih =>
    unfold writeRows
    split
    · rfl
    · next record hrec =>
      obtain ⟨r, hr, hnone⟩ := h
      rcases List.mem_cons.1 hr with h1 | h1
      · rw [h1, hrec] at hnone
        cases hnone
      · exact ih _ ⟨r, h1, hnone⟩

/-- A batch in which some column read returned fewer values than the batch
length ends in an index panic. -/
theorem execBatch_panics {σ α : Type} (D : Decoder σ α) (fmt : α → String) (offset : Int)
    (columns : List String) (i toRead : Int) (st st1 st2 : St σ) (columnData : List (List α))
    (hskip : skipStep D offset i st = (st1, none))
    (hread : readColumns D toRead columns st1 [] = (st2, .ok columnData))
    (hshort : ∃ colValues ∈ columnData, colValues.length < toRead.toNat) :
    (execBatch D fmt offset columns i toRead st).2 = some .indexPanic := by
  unfold execBatch
  rw [hskip]
  simp only
  rw [hread]
  simp only
  obtain ⟨cv, hcv, hlen⟩ := hshort
  exact writeRows_panics fmt columnData _ st2
    ⟨cv.length, List.mem_range.2 hlen, buildRecord_of_short fmt columnData _ ⟨cv, hcv, le_refl _⟩⟩

/-! ## A file of 2^63 - 1 rows -/

/-- A column read on the table returns `min(num, rows left)` values. -/
theorem table_read_length {α : Type} (t : Table α) (path : String) (num : Int)
    (h : path ∈ t.schema) :
    ∃ values t1, (tableDecoder α).ReadColumnByPath t path num = .ok (values, t1) ∧
      values.length = min num.toNat (t.numRows - t.cursor path) := by
  simp only [tableDecoder, Table.ReadColumnByPath, h, if_true]
  exact ⟨_, _, rfl, by simp⟩

/-- A batch of non-positive length after the first one reads nothing, writes
nothing and moves no cursor of the selected columns. -/
theorem execBatch_table_nothing {α : Type} (fmt : α → String) (sel : List String)
    (hnodup : sel.Nodup) (offset i toRead : Int) (st : St (Table α)) (hi : i ≠ offset)
    (hneg : toRead ≤ 0) (k : Nat) (hex : ∀ c ∈ sel, columnPath c ∈ st.pr.schema)
    (hcur : ∀ c ∈ sel, st.pr.cursor (columnPath c) = k) (hk : k ≤ st.pr.numRows) :
    ∃ st1, execBatch (tableDecoder α) fmt offset sel i toRead st = (st1, none) ∧
      st1.records = st.records ∧ st1.pr.schema = st.pr.schema ∧
      st1.pr.numRows = st.pr.numRows ∧ ∀ c ∈ sel, st1.pr.cursor (columnPath c) = k := by
  have hz : toRead.toNat = 0 := by omega
  have hskip : skipStep (tableDecoder α) offset i st = (st, none) := by
    unfold skipStep
    rw [if_neg (fun h => hi h.1)]
  obtain ⟨st2, hread, hrec2, hsch2, hnum2, _, hcur2, _⟩ :=
    readColumns_table toRead k sel hnodup st [] hex hcur (by omega)
  refine ⟨st2, ?_, hrec2, hsch2, hnum2, fun c hc => by rw [hcur2 c hc, hz]; rfl⟩
  unfold execBatch
  rw [hskip]
  simp only
  rw [hread]
  simp only [hz, List.range_zero, writeRows]

/-- On the file of 2^63 - 1 rows, at offset 2^63 - 200 and size 150, the batch
loop never returns: after the batches of 100 and 50 rows the counter wraps to
-2^63, batches of negative length follow, and at `i = -8` a batch of 100 rows is
asked of a column that has 49 rows left, which ends in an index panic. -/
theorem huge_loop_never_returns (fuel : Nat) (i : Int) (st : St (Table Nat))
    (hsch : st.pr.schema = ["Schema\x01id"]) (hnum : st.pr.numRows = 9223372036854775807)
    (hphase : (i = 9223372036854775608 ∧ st.pr.cursor (columnPath "id") = 0) ∨
      (i = 9223372036854775708 ∧ st.pr.cursor (columnPath "id") = 9223372036854775708) ∨
      ((i + 9223372036854775808) % 100 = 0 ∧ -9223372036854775808 ≤ i ∧ i ≤ -8 ∧
        st.pr.cursor (columnPath "id") = 9223372036854775758)) :
    (forBatches 9223372036854775608 150 100
      (execBatch (tableDecoder Nat) toString 9223372036854775608 ["id"]) fuel i st).2 ≠
        .returned := by
  have hstop : addInt 9223372036854775608 150 = 9223372036854775758 := by decide
  have hlt : i < addInt 9223372036854775608 150 := by rw [hstop]; omega
  have hex : ∀ c ∈ ["id"], columnPath c ∈ st.pr.schema := by
    intro c hc
    rw [hsch, List.mem_singleton.1 hc]
    decide
  have hnd : ["id"].Nodup := by decide
  induction fuel generalizing i st with
  | zero => simp [forBatches, hlt]
  | succ fuel ih =>
    rw [forBatches_step _ _ _ _ _ _ _ hlt]
    rcases hphase with ⟨hi, hc⟩ | ⟨hi, hc⟩ | ⟨hmod, hlo, hhi, hc⟩
    · subst hi
      have ht : toReadAt 9223372036854775608 150 100 9223372036854775608 = 100 := by decide
      have ha : addInt 9223372036854775608 100 = 9223372036854775708 := by decide
      obtain ⟨st1, hbatch, _, hsch1, hnum1, _, hcur1⟩ :=
        execBatch_table toString ["id"] hnd 9223372036854775608 9223372036854775608 100 st
          (by decide) hex (fun c hc2 => by rw [List.mem_singleton.1 hc2, hc]; simp)
          (by rw [hnum]; decide)
      rw [ht, hbatch, ha]
      have hc1 := hcur1 "id" (by simp)
      exact ih _ st1 (hsch1.trans hsch) (hnum1.trans hnum)
        (Or.inr (Or.inl ⟨rfl, by rw [hc1]; decide⟩)) (by rw [hstop]; decide)
        (fun c hc2 => by rw [hsch1]; exact hex c hc2)
    · subst hi
      have ht : toReadAt 9223372036854775608 150 100 9223372036854775708 = 50 := by decide
      have ha : addInt 9223372036854775708 100 = -9223372036854775808 := by decide
      obtain ⟨st1, hbatch, _, hsch1, hnum1, _, hcur1⟩ :=
        execBatch_table toString ["id"] hnd 9223372036854775608 9223372036854775708 50 st
          (by decide) hex (fun c hc2 => by rw [List.mem_singleton.1 hc2, hc]; simp)
          (by rw [hnum]; decide)
      rw [ht, hbatch, ha]
      have hc1 := hcur1 "id" (by simp)
      exact ih _ st1 (hsch1.trans hsch) (hnum1.trans hnum)
        (Or.inr (Or.inr ⟨by decide, by decide, by decide, by rw [hc1]; decide⟩))
        (by rw [hstop]; decide) (fun c hc2 => by rw [hsch1]; exact hex c hc2)
    · by_cases h8 : i = -8
      · subst h8
        have ht : toReadAt 9223372036854775608 150 100 (-8) = 100 := by decide
        have hskip : skipStep (tableDecoder Nat) 9223372036854775608 (-8) st = (st, none) := by
          unfold skipStep
          rw [if_neg (by decide)]
        obtain ⟨values, t1, hread, hlen⟩ :=
          table_read_length st.pr (columnPath "id") 100 (hex "id" (by simp))
        rw [hnum, hc] at hlen
        have hlen49 : values.length = 49 := by rw [hlen]; decide
        have hreadAll : readColumns (tableDecoder Nat) 100 ["id"] st [] =
            ({ st with pr := t1, calls := st.calls ++ [.ReadColumnByPath (columnPath "id") 100] },
              .ok [values]) := by
          simp only [readColumns, hread, List.nil_append]
        have hpanic := execBatch_panics (tableDecoder Nat) toString 9223372036854775608 ["id"]
          (-8) 100 st st _ [values] hskip hreadAll ⟨values, by simp, by rw [hlen49]; decide⟩
        rw [ht]
        generalize execBatch (tableDecoder Nat) toString 9223372036854775608 ["id"] (-8) 100 st = r
          at hpanic ⊢
        obtain ⟨s1, oe⟩ := r
        simp only at hpanic
        subst hpanic
        simp
      · have hle : i ≤ -108 := by omega
        have hsub : subInt 9223372036854775758 i = 9223372036854775758 - i - 2 ^ 64 := by
          unfold subInt wrapInt
          omega
        have ht : toReadAt 9223372036854775608 150 100 i =
            9223372036854775758 - i - 2 ^ 64 := by
          unfold toReadAt
          rw [hstop, hsub, if_pos (by omega)]
        have ha : addInt i 100 = i + 100 := addInt_of_isInt _ _ (by unfold IsInt; omega)
        obtain ⟨st1, hbatch, _, hsch1, hnum1, hcur1⟩ :=
          execBatch_table_nothing toString ["id"] hnd 9223372036854775608 i
            (9223372036854775758 - i - 2 ^ 64) st (by omega) (by omega) 9223372036854775758 hex
            (fun c hc2 => by rw [List.mem_singleton.1 hc2, hc]) (by rw [hnum]; decide)
        rw [ht, hbatch, ha]
        exact ih _ st1 (hsch1.trans hsch) (hnum1.trans hnum)
          (Or.inr (Or.inr ⟨by omega, by omega, by omega, hcur1 "id" (by simp)⟩))
          (by rw [hstop]; omega) (fun c hc2 => by rw [hsch1]; exact hex c hc2)

/-- Claim C1 as stated fails in three places.  With the empty request on the
scenario file the header is `id,name,score`, not the (empty) requested list, and
the data record has three fields.  On a file whose schema identifier is
`Parquet_go_root\x01id`, the request of that very name passes validation, the
header is written, and the column read of `Schema\x01Parquet_go_root\x01id`
fails.  On the file of 2^63 - 1 rows, with the request `id` at offset 2^63 - 200
and size 150 (`offset+size` does not overflow), the run never returns: the loop
counter wraps after the 150 rows. -/
theorem export_fails_as_stated :
    ((([] : List String).Nodup ∧ (0 : Int) < 25) ∧
        ∀ fuel, (readParquet (tableDecoder String) id (1 + fuel) scenarioFile 0 1 []).records =
          [["id", "name", "score"], ["0@id", "0@name", "0@score"]]) ∧
      (("Parquet_go_root\x01id" ∈ rootedFile.schema ∧
          resolveColumns rootedFile.schema ["Parquet_go_root\x01id"] =
            .ok ["Parquet_go_root\x01id"]) ∧
        ∀ fuel, readParquet (tableDecoder String) id (1 + fuel) rootedFile 0 1
            ["Parquet_go_root\x01id"] =
          ⟨[["Parquet_go_root\x01id"]],
            [.ReadColumnByPath "Schema\x01Parquet_go_root\x01id" 1],
            .fatal (.readFailed "Parquet_go_root\x01id" "path not found")⟩) ∧
      ((["id"].Nodup ∧ columnPath "id" ∈ hugeFile.schema ∧
          (0 : Int) ≤ 9223372036854775608 ∧
          (9223372036854775608 : Int) < (hugeFile.numRows : Int) ∧
          (9223372036854775608 : Int) + 150 < 2 ^ 63) ∧
        ∀ fuel, (readParquet (tableDecoder Nat) toString fuel hugeFile 9223372036854775608 150
          ["id"]).exit ≠ .returned) := by
  refine ⟨⟨by decide, ?_⟩, ⟨by decide, ?_⟩, ⟨by decide, ?_⟩⟩
  · intro fuel
    rw [readParquet_more_fuel (tableDecoder String) id 1 fuel scenarioFile 0 1 [] (by decide)]
    decide
  · intro fuel
    rw [readParquet_more_fuel (tableDecoder String) id 1 fuel rootedFile 0 1
      ["Parquet_go_root\x01id"] (by decide)]
    decide
  · intro fuel
    have hres : resolveColumns ((tableDecoder Nat).ValueColumns hugeFile) ["id"] = .ok ["id"] := by
      decide
    have hnot : ¬ (9223372036854775608 : Int) ≥ (tableDecoder Nat).GetNumRows hugeFile := by
      decide
    have hclamp : clampSize 9223372036854775608 150 ((tableDecoder Nat).GetNumRows hugeFile) =
        150 := by decide
    have hbs : batchSizeOf 150 = 100 := by decide
    unfold readParquet
    rw [hres]
    simp only [hnot, if_false, hclamp, hbs]
    exact huge_loop_never_returns fuel 9223372036854775608 ⟨hugeFile, [["id"]], []⟩ rfl rfl
      (Or.inl ⟨rfl, rfl⟩)

/-! ## A batch, for any decoder -/

/-- Lines 113-122 when every column read succeeds.  `states j` is the decoder
before the read of column `j` and `bufs j` the values that read returns. -/
theorem readColumns_of_reads {σ α : Type} (D : Decoder σ α) (toRead : Int)
    (columns : List String) (states : Nat → σ) (bufs : Nat → List α) (st : St σ)
    (acc : List (List α)) (hpr : st.pr = states 0)
    (h : ∀ j (hj : j < columns.length),
      D.ReadColumnByPath (states j) (columnPath columns[j]) toRead =
        .ok (bufs j, states (j + 1))) :
    readColumns D toRead columns st acc =
      (⟨states columns.length, st.records,
          st.calls ++ columns.map (fun c => Call.ReadColumnByPath (columnPath c) toRead)⟩,
        .ok (acc ++ (List.range columns.length).map bufs)) := by
  induction columns generalizing states bufs st acc with
  | nil =>
    obtain ⟨pr, records, calls⟩ := st
    simp only at hpr
    subst hpr
    simp [readColumns]
  | cons c rest ih =>
    have h0 := h 0 (by simp)
    simp only [List.getElem_cons_zero] at h0
    unfold readColumns
    rw [hpr, h0]
    simp only
    rw [ih (fun j => states (j + 1)) (fun j => bufs (j + 1)) _ _ rfl
      (fun j hj => by simpa using h (j + 1) (by simpa using hj))]
    simp [List.range_succ_eq_map, List.map_map, Function.comp]

/-- Lines 113-122 when the reads of the columns `before` succeed and the read of
the next column `col` returns the error `err`. -/
theorem readColumns_of_failed_read {σ α : Type} (D : Decoder σ α) (toRead : Int)
    (before : List String) (col : String) (after : List String) (err : String)
    (states : Nat → σ) (bufs : Nat → List α) (st : St σ) (acc : List (List α))
    (hpr : st.pr = states 0)
    (h : ∀ j (hj : j < before.length),
      D.ReadColumnByPath (states j) (columnPath before[j]) toRead =
        .ok (bufs j, states (j + 1)))
    (herr : D.ReadColumnByPath (states before.length) (columnPath col) toRead = .error err) :
    readColumns D toRead (before ++ col :: after) st acc =
      (⟨states before.length, st.records,
          st.calls ++ (before ++ [col]).map
            (fun c => Call.ReadColumnByPath (columnPath c) toRead)⟩,
        .error (.readFailed col err)) := by
  induction before generalizing states bufs st acc with
  | nil =>
    obtain ⟨pr, records, calls⟩ := st
    simp only at hpr
    subst hpr
    simp only [List.length_nil] at herr
    simp [readColumns, herr]
  | cons b rest ih =>
    have h0 := h 0 (by simp)
    simp only [List.getElem_cons_zero] at h0
    simp only [List.cons_append]
    unfold readColumns
    rw [hpr, h0]
    simp only
    rw [ih (fun j => states (j + 1)) (fun j => bufs (j + 1)) _ _ rfl
      (fun j hj => by simpa using h (j + 1) (by simpa using hj)) (by simpa using herr)]
    simp

/-- Lines 105-110 in terms of the decoder: either the batch is not the first one
of a positive offset and nothing happens, or `SkipRows(offset)` succeeds. -/
theorem skipStep_of_skip {σ α : Type} (D : Decoder σ α) (offset i : Int) (st : St σ) (pr0 : σ)
    (hskip : (¬ (i = offset ∧ offset > 0) ∧ pr0 = st.pr) ∨
      ((i = offset ∧ offset > 0) ∧ D.SkipRows st.pr offset = .ok pr0)) :
    skipStep D offset i st =
      (⟨pr0, st.records,
        st.calls ++ (if i = offset ∧ offset > 0 then [Call.SkipRows offset] else [])⟩, none) := by
  unfold skipStep
  rcases hskip with ⟨hno, hpr⟩ | ⟨hyes, hok⟩
  · rw [if_neg hno, if_neg hno, hpr]
    simp
  · rw [if_pos hyes, if_pos hyes, hok]

/-- Claim C7, as the code has it: the number of values a column read returns is
never compared with the batch length, and there is no short-read error.  For
the batch `(i, toRead)` of the loop, once the skip step is through
(`states 0` is the decoder after it, `states j` the decoder before the read of
column `j`, `bufs j` the values that read returns):
when the reads of the columns `before` succeed and the read of the next column
`col` returns the error `err`, the run ends there with the read error of `col`
and `err`, no record written in the batch and no further read issued;
when every column read succeeds with at least `toRead` values, the run goes on
to the next batch having written `toRead` records, field `j` of record `row`
being the rendering of value number `row` of the buffer of column `j` (values
past `toRead` are ignored). -/
theorem batch_without_length_check {σ α : Type} (D : Decoder σ α) (fmt : α → String)
    (offset size batchSize : Int) (fuel : Nat) (i toRead : Int) (st : St σ)
    (states : Nat → σ) (bufs : Nat → List α)
    (hlt : i < addInt offset size) (htr : toRead = toReadAt offset size batchSize i)
    (hskip : (¬ (i = offset ∧ offset > 0) ∧ states 0 = st.pr) ∨
      ((i = offset ∧ offset > 0) ∧ D.SkipRows st.pr offset = .ok (states 0))) :
    (∀ before col after err,
        (∀ j (hj : j < before.length),
          D.ReadColumnByPath (states j) (columnPath before[j]) toRead =
            .ok (bufs j, states (j + 1))) →
        D.ReadColumnByPath (states before.length) (columnPath col) toRead = .error err →
        forBatches offset size batchSize (execBatch D fmt offset (before ++ col :: after))
            (fuel + 1) i st =
          (⟨states before.length, st.records,
              st.calls ++ (if i = offset ∧ offset > 0 then [Call.SkipRows offset] else []) ++
                (before ++ [col]).map (fun c => Call.ReadColumnByPath (columnPath c) toRead)⟩,
            .fatal (.readFailed col err))) ∧
      (∀ columns,
        (∀ j (hj : j < columns.length),
          D.ReadColumnByPath (states j) (columnPath columns[j]) toRead =
            .ok (bufs j, states (j + 1))) →
        (∀ j, j < columns.length → toRead.toNat ≤ (bufs j).length) →
        ∃ written,
          written.map (List.map some) = (List.range toRead.toNat).map
            (fun row => (List.range columns.length).map (fun j => ((bufs j)[row]?).map fmt)) ∧
          forBatches offset size batchSize (execBatch D fmt offset columns) (fuel + 1) i st =
            forBatches offset size batchSize (execBatch D fmt offset columns) fuel
              (addInt i batchSize)
              ⟨states columns.length, st.records ++ written,
                st.calls ++ (if i = offset ∧ offset > 0 then [Call.SkipRows offset] else []) ++
                  columns.map (fun c => Call.ReadColumnByPath (columnPath c) toRead)⟩) := by
  have hs := skipStep_of_skip D offset i st (states 0) hskip
  constructor
  · intro before col after err hreads herr
    rw [forBatches_step _ _ _ _ _ _ _ hlt, ← htr]
    unfold execBatch
    rw [hs]
    simp only
    rw [readColumns_of_failed_read D toRead before col after err states bufs _ [] rfl hreads herr]
  · intro columns hreads hlong
    have hrec : ∀ row, row < toRead.toNat → ∃ record,
        buildRecord fmt ((List.range columns.length).map bufs) row = some record ∧
          record.map some =
            (List.range columns.length).map (fun j => ((bufs j)[row]?).map fmt) := by
      intro row hrow
      obtain ⟨record, h1, h2⟩ := buildRecord_of_long fmt ((List.range columns.length).map bufs)
        row (fun cv hcv => by
          obtain ⟨j, hj, hjeq⟩ := List.mem_map.1 hcv
          rw [← hjeq]
          exact Nat.lt_of_lt_of_le hrow (hlong j (List.mem_range.1 hj)))
      refine ⟨record, h1, ?_⟩
      rw [h2, List.map_map]
      rfl
    refine ⟨(List.range toRead.toNat).map
      (fun row => (buildRecord fmt ((List.range columns.length).map bufs) row).getD []), ?_, ?_⟩
    · rw [List.map_map]
      apply List.map_congr_left
      intro row hrow
      obtain ⟨record, h1, h2⟩ := hrec row (List.mem_range.1 hrow)
      simp only [Function.comp, h1, Option.getD_some, h2]
    · rw [forBatches_step _ _ _ _ _ _ _ hlt, ← htr]
      unfold execBatch
      rw [hs]
      simp only
      rw [readColumns_of_reads D toRead columns states bufs _ [] rfl hreads]
      simp only [List.nil_append]
      rw [writeRows_of_records fmt _
        (fun row => (buildRecord fmt ((List.range columns.length).map bufs) row).getD [])
        (List.range toRead.toNat) _ (fun row hrow => by
          obtain ⟨record, h1, _⟩ := hrec row (List.mem_range.1 hrow)
          simp only [h1, Option.getD_some])]

/-- Claim C7 on a decoder whose read of `name` fails and whose other reads
return 7 values for a batch of 5: the request `id,name,score` ends with the read
error of `name` after the reads of `id` and `name`; the request `id,score` goes
through with five records built from the first five values of each buffer. -/
theorem batch_without_length_check_witness :
    ((0 : Int) < addInt 0 5 ∧ (5 : Int) = toReadAt 0 5 5 0) ∧
      forBatches 0 5 5 (execBatch brokenNameDecoder toString 0 (["id"] ++ "name" :: ["score"]))
          (0 + 1) 0 ⟨0, [["id", "name", "score"]], []⟩ =
        (⟨1, [["id", "name", "score"]],
            [] ++ (if (0 : Int) = 0 ∧ (0 : Int) > 0 then [Call.SkipRows 0] else []) ++
              (["id"] ++ ["name"]).map (fun c => Call.ReadColumnByPath (columnPath c) 5)⟩,
          .fatal (.readFailed "name" "broken page")) ∧
      ∃ written,
        written.map (List.map some) = (List.range (5 : Int).toNat).map
          (fun row => (List.range ["id", "score"].length).map
            (fun j => (((List.range 7).map (fun r => 10 * j + r))[row]?).map toString)) ∧
        forBatches 0 5 5 (execBatch brokenNameDecoder toString 0 ["id", "score"]) (0 + 1) 0
            ⟨0, [["id", "score"]], []⟩ =
          forBatches 0 5 5 (execBatch brokenNameDecoder toString 0 ["id", "score"]) 0
            (addInt 0 5)
            ⟨2, [["id", "score"]] ++ written,
              [] ++ (if (0 : Int) = 0 ∧ (0 : Int) > 0 then [Call.SkipRows 0] else []) ++
                ["id", "score"].map (fun c => Call.ReadColumnByPath (columnPath c) 5)⟩ :=
  ⟨⟨by decide, by decide⟩,
    (batch_without_length_check brokenNameDecoder toString 0 5 5 0 0 5
      ⟨0, [["id", "name", "score"]], []⟩ (fun j => j)
      (fun j => (List.range 7).map (fun r => 10 * j + r)) (by decide) (by decide)
      (Or.inl ⟨by decide, rfl⟩)).1 ["id"] "name" ["score"] "broken page" (by decide) (by decide),
    (batch_without_length_check brokenNameDecoder toString 0 5 5 0 0 5
      ⟨0, [["id", "score"]], []⟩ (fun j => j)
      (fun j => (List.range 7).map (fun r => 10 * j + r)) (by decide) (by decide)
      (Or.inl ⟨by decide, rfl⟩)).2 ["id", "score"] (by decide) (by decide)⟩

end ParquetCli
